import Mathlib

/-!
Verification of the `run_py` build orchestrator (files `run_py/make.py`,
`run_py/src.py`, `run_py/build.py`).

The Python code is shallowly embedded: paths are strings (or component
lists where `..`-resolution matters), Python `set`s of path strings are
modelled as lists used up to membership, Python dictionaries as
association lists or functions with the dictionary's default, exceptions
as `Except String`, and the filesystem as an explicit record of pure
functions describing one snapshot.  The MD5 digest is kept abstract as a
function parameter.
-/

namespace RunPy

/-! ## Paths as component lists (for `src.py` include resolution) -/

/-- A filesystem path, as its list of components starting from the root. -/
abbrev PathC := List String

/-- Model of `pathlib.Path.resolve()` restricted to `.`/`..` processing:
components are folded left to right, `..` removes the last accumulated
component and `.` is dropped. -/
def resolveDots (p : PathC) : PathC :=
  p.foldl (fun acc c =>
    if c = ".." then acc.dropLast
    else if c = "." then acc
    else acc ++ [c]) []

/-- Splitting of a relative path string at `'/'` into components, as
`pathlib` does when a string is joined onto a `Path`. -/
def splitComponents (cs : List Char) : List (List Char) :=
  match cs with
  | [] => [[]]
  | c :: rest =>
    let r := splitComponents rest
    if c = '/' then [] :: r
    else
      match r with
      | [] => [[c]]
      | x :: xs => (c :: x) :: xs

/-- String-level wrapper of `splitComponents`. -/
def splitPath (s : String) : List String :=
  (splitComponents s.toList).map (fun l => String.mk l)

/-! ## `src.py`: `File.scan_contents` (include recording, lines 103-107)

Lexing by regular expression is abstracted: a source line is given in an
already-matched form.  Conditional-compilation filtering (the minimal
preprocessor at the top of `scan_contents`) happens before these cases
are reached and is abstracted as well: `lines` below stands for the
lines that survive the `if_stack` filter. -/

/-- One (already lexed) line of a scanned source file, as classified by
the regular expressions in `File.scan_contents`. -/
inductive SrcLine where
  | sysInclude (name : String)
  | commentLib (name : String)
  | localInclude (name : String)
  | pragmaArg (build_type target arg : String)
  | pragmaMain
  | other
deriving DecidableEq

/-- Embedding of `dep = self.path.parent / match.group(1); dep = dep.resolve()`
(src.py lines 105-106): the include is resolved relative to the directory
of the including file, unconditionally. -/
def includeDep (path : PathC) (name : String) : PathC :=
  resolveDots (path.dropLast ++ splitPath name)

/-- Embedding of the `direct_includes` accumulation of `File.scan_contents`:
every local-include line appends `includeDep` of its target (src.py line 107).
No filesystem is consulted. -/
def scanDirectIncludes (path : PathC) (lines : List SrcLine) : List PathC :=
  lines.foldl (fun acc l =>
    match l with
    | .localInclude name => acc ++ [includeDep path name]
    | _ => acc) []

/-- Modelled from the spec: the resolution rule as the specification words
it — "resolved relative to the including file, else to the project root —
first match wins".  Used only to compare against the source's
`includeDep`; it is not code of the repository. -/
def specResolveInclude (fexists : PathC → Bool) (root : PathC) (path : PathC)
    (name : String) : PathC :=
  let fileRel := resolveDots (path.dropLast ++ splitPath name)
  if fexists fileRel then fileRel else resolveDots (root ++ splitPath name)

/-! ## `src.py`: per-variant argument lists (`build_compile_args` etc.) -/

/-- The three per-variant argument dictionaries of a `File`
(`defaultdict(list)`, so lookup of an absent key yields `[]`; modelled as
total functions with that default built in). -/
structure FileArgs where
  link_args : String → List String
  compile_args : String → List String
  run_args : String → List String

/-- Embedding of `File.build_link_args` (src.py line 43-44). -/
def build_link_args (f : FileArgs) (build_type : String) : List String :=
  f.link_args build_type ++ (if build_type ≠ "" then f.link_args "" else [])

/-- Embedding of `File.build_compile_args` (src.py line 46-47). -/
def build_compile_args (f : FileArgs) (build_type : String) : List String :=
  f.compile_args build_type ++ (if build_type ≠ "" then f.compile_args "" else [])

/-- Embedding of `File.build_run_args` (src.py line 49-50). -/
def build_run_args (f : FileArgs) (build_type : String) : List String :=
  f.run_args build_type ++ (if build_type ≠ "" then f.run_args "" else [])

/-! ## `make.py`: `Step` construction and `Recipe.add_step` -/

/-- The aspects of a Python build function (`build_func`) that
`Step.__init__` inspects: its `__name__` when it has one, and its
`__module__`. -/
structure BuildFunc where
  name : Option String
  module : String
deriving DecidableEq

/-- Data of a constructed `Step` (make.py lines 95-103).  Python stores
`outputs`/`inputs` as `set`s of strings; they are modelled as lists used
only up to membership. -/
structure StepData where
  desc : String
  shortcut : String
  outputs : List String
  inputs : List String
  id : Nat
deriving DecidableEq, Repr

/-- Embedding of `Step.__init__` (make.py lines 74-103).  `ValueError`s
become `Except.error`.  Python's `if not desc:` is true for both `None`
and the empty string, hence the `getD ""` tests. -/
def mkStep (bf : BuildFunc) (outputs inputs : List String) (id : Nat)
    (desc shortcut : Option String) : Except String StepData :=
  match (if (desc.getD "") = "" then
           match bf.name with
           | some nm => Except.ok ("Running " ++ nm)
           | none => Except.error
               ("Step from module " ++ bf.module ++ " is missing a required \"desc\" parameter")
         else Except.ok (desc.getD "")) with
  | .error e => .error e
  | .ok d =>
    match (if (shortcut.getD "") = "" then
             match bf.name with
             | some nm => Except.ok nm
             | none => Except.error
                 ("Step from module " ++ bf.module ++ " is missing a required \"shortcut\" parameter")
           else Except.ok (shortcut.getD "")) with
    | .error e => .error e
    | .ok sc =>
      if sc.toList.contains '/' then
        .error ("Slashes not allowed in step shortcuts: " ++ sc)
      else
        .ok { desc := d, shortcut := sc, outputs := outputs, inputs := inputs, id := id }

/-- Embedding of `Recipe.add_step` (make.py lines 201-202): appends a new
`Step` with `id = len(self.steps)`.  No check against the existing steps
is performed. -/
def add_step (steps : List StepData) (bf : BuildFunc) (outputs inputs : List String)
    (desc shortcut : Option String) : Except String (List StepData) :=
  (mkStep bf outputs inputs steps.length desc shortcut).map (fun s => steps ++ [s])

/-! ## `src.py` / `build.py`: extension loading and lifecycle hooks -/

/-- Embedding of `load_extensions` (src.py lines 179-192): each `*.py`
path in the source directory yields one load attempt; a raising load is
caught (`except Exception`), printed, and the loop continues, so the
returned list keeps exactly the successful loads in order.  Memoization
of `load_extension` is not observable here and is elided. -/
def load_extensions {M : Type} (loads : List (Except String M)) : List M :=
  loads.foldl (fun acc l =>
    match l with
    | .ok m => acc ++ [m]
    | .error _ => acc) []

/-- Embedding of the four identical hook loops in `build.py`'s `recipe`
(lines 300-302, 309-311, 318-320 and 382-384):
`for ext in extensions: if hasattr(ext, 'hook_*'): ext.hook_*(...)`.
A module without the attribute is `none`; a hook that raises is a
`.error`, and — since `recipe()` wraps no `try`/`except` around the
calls — the error propagates, aborting the loop. -/
def run_extension_hooks {α : Type} (hooks : List (Option (α → Except String α)))
    (r : α) : Except String α :=
  match hooks with
  | [] => .ok r
  | none :: rest => run_extension_hooks rest r
  | some f :: rest =>
    match f r with
    | .error e => .error e
    | .ok r2 => run_extension_hooks rest r2

/-! ## `make.py`: filesystem snapshot, `hexdigest` and the change detector -/

/-- One immutable snapshot of the filesystem, as the pure functions the
change detector consults.  `exists_`, `is_dir`, `mtime` model
`Path.exists()`, `Path.is_dir()` and `Path.stat().st_mtime`;
`readBytes` models `Path.read_bytes()`, `dirMtimeNs` the
`st_mtime_ns.to_bytes(8,'big')` of a directory, and `is_relative_to o p`
models `Path(o).is_relative_to(p)`. -/
structure FS where
  exists_ : String → Bool
  is_dir : String → Bool
  mtime : String → Int
  readBytes : String → String
  dirMtimeNs : String → String
  is_relative_to : String → String → Bool

/-- Embedding of `hexdigest` (make.py lines 60-69), with the MD5 digest
abstract as `md5`. -/
def hexdigest (md5 : String → String) (fs : FS) (path : String) : String :=
  if fs.exists_ path then
    if fs.is_dir path then md5 (fs.dirMtimeNs path)
    else md5 (fs.readBytes path)
  else md5 ""

/-- Embedding of `build_time` in `Step.dirty_inputs` (make.py lines
124-129): the minimum `st_mtime` over the outputs (0 for a missing
output), or 0 when there are no outputs. -/
def build_time (fs : FS) (outputs : List String) : Int :=
  match outputs.map (fun t => if fs.exists_ t then fs.mtime t else 0) with
  | [] => 0
  | x :: xs => xs.foldl min x

/-- Embedding of the directory self-output skip in `Step.dirty_inputs`
(make.py line 134): an input directory containing one of the step's own
existing outputs is skipped. -/
def dirSkip (fs : FS) (outputs : List String) (inp : String) : Bool :=
  fs.is_dir inp &&
    outputs.any (fun out => fs.is_relative_to out inp && fs.exists_ out)

/-- An input survives the mtime filter of `Step.dirty_inputs` (make.py
lines 130-140) when it is not dir-skipped, exists, and is not older than
`build_time`. -/
def isCandidate (fs : FS) (st : StepData) (inp : String) : Bool :=
  !dirSkip fs st.outputs inp && fs.exists_ inp &&
    !(decide (fs.mtime inp < build_time fs st.outputs))

/-- Lookup in the parsed hash record (make.py lines 149-152):
`recorded_hashes` is a `defaultdict(str)` filled line by line, so a
repeated key keeps its last value and a missing key reads as `""`. -/
def recordedHash (record : List (String × String)) (inp : String) : String :=
  ((record.reverse.find? (fun p => p.1 == inp)).map Prod.snd).getD ""

/-- Embedding of `Step.dirty_inputs` (make.py lines 117-157).  The hash
directory is `store`, keyed by step shortcut; `store st.shortcut = none`
models a missing cache file. -/
def dirty_inputs (md5 : String → String) (fs : FS) (st : StepData)
    (store : String → Option (List (String × String))) : List String :=
  if st.outputs.any (fun out => !fs.exists_ out) then st.inputs
  else
    let updated := st.inputs.filter (isCandidate fs st)
    if updated.isEmpty then []
    else
      match store st.shortcut with
      | none => updated
      | some record =>
        updated.filter (fun inp => hexdigest md5 fs inp ≠ recordedHash record inp)

/-- Embedding of `Step.record_input_hashes` (make.py lines 112-115): the
cache record for the step's shortcut is overwritten with the current
digest of every input. -/
def record_input_hashes (md5 : String → String) (fs : FS) (st : StepData)
    (store : String → Option (List (String × String))) :
    String → Option (List (String × String)) :=
  fun k => if k = st.shortcut
           then some (st.inputs.map (fun inp => (inp, hexdigest md5 fs inp)))
           else store k

/-- Whether `Step.build_if_needed` (make.py lines 159-173) invokes the
step's build action. -/
def build_if_needed_runs (md5 : String → String) (fs : FS) (st : StepData)
    (store : String → Option (List (String × String))) : Bool :=
  if st.inputs.isEmpty && st.outputs.any (fun out => !fs.exists_ out) then true
  else if st.outputs.isEmpty then true
  else !(dirty_inputs md5 fs st store).isEmpty

/-! ## `make.py`: `Recipe.set_target` (lines 205-256)

Steps are identified by their position in the recipe's step list (Python
compares `Step` objects by identity, and the list holds one object per
position).  The measure lemma below justifies termination of the
backward worklist walk. -/

/-- Helper for worklist termination: extending the visited list by a yet
unvisited element of `l` strictly shrinks the unvisited part of `l`. -/
theorem length_filter_lt_of_mem {α : Type} [DecidableEq α] (l v w : List α) (i : α)
    (hw : ∀ j, j ∈ w ↔ j = i ∨ j ∈ v) (hil : i ∈ l) (hiv : i ∉ v) :
    (l.filter (fun j => decide (j ∉ w))).length <
      (l.filter (fun j => decide (j ∉ v))).length := by
  induction l with
  | nil => cases hil
  | cons a l ih =>
    have hsub : ∀ j : α, j ∉ w → j ∉ v := fun j hj hjv => hj ((hw j).mpr (Or.inr hjv))
    have hiw : i ∈ w := (hw i).mpr (Or.inl rfl)
    have hmono : (l.filter (fun j => decide (j ∉ w))).length ≤
        (l.filter (fun j => decide (j ∉ v))).length := by
      rw [← List.countP_eq_length_filter, ← List.countP_eq_length_filter]
      exact List.countP_mono_left (fun a _ h => by
        simp only [decide_eq_true_eq] at h ⊢
        exact hsub a h)
    by_cases haw : a ∈ w
    · have hdw : decide (a ∉ w) = false := by simp [haw]
      by_cases hav : a ∈ v
      · have hdv : decide (a ∉ v) = false := by simp [hav]
        have hai : a ≠ i := fun h => hiv (h ▸ hav)
        have hil' : i ∈ l := by
          rcases List.mem_cons.mp hil with h | h
          · exact absurd h.symm hai
          · exact h
        simpa [List.filter_cons, hdw, hdv, haw, hav] using ih hil'
      · have hdv : decide (a ∉ v) = true := by simp [hav]
        have := hmono
        simp only [List.filter_cons, hdw, hdv, if_true, List.length_cons]
        simp only [Bool.false_eq_true, if_false]
        omega
    · have hdw : decide (a ∉ w) = true := by simp [haw]
      have hav : a ∉ v := hsub a haw
      have hdv : decide (a ∉ v) = true := by simp [hav]
      have hai : a ≠ i := fun h => haw (h ▸ hiw)
      have hil' : i ∈ l := by
        rcases List.mem_cons.mp hil with h | h
        · exact absurd h.symm hai
        · exact h
      have := ih hil'
      simp only [List.filter_cons, hdw, hdv, if_true, List.length_cons]
      omega

/-- Embedding of the `out_index` lookup (make.py lines 206-213,
245-248): the steps whose output set contains `inp`, in step order. -/
def producers (steps : List StepData) (inp : String) : List (Fin steps.length) :=
  (List.finRange steps.length).filter (fun i => (steps.get i).outputs.contains inp)

/-- Embedding of the per-step input loop of the walk in `set_target`
(make.py lines 245-252): inputs produced by some step enqueue all their
producers; an input nobody produces must exist on disk, otherwise the
unsatisfiable-dependency error is raised. -/
def enqueueInputs (steps : List StepData) (fexists : String → Bool) (desc : String) :
    List String → Except String (List (Fin steps.length))
  | [] => .ok []
  | inp :: rest =>
    let ps := producers steps inp
    if ps.isEmpty then
      if fexists inp then enqueueInputs steps fexists desc rest
      else .error ("\"" ++ desc ++ "\" requires `" ++ inp ++
        "` but it does not exist and there is no recipe to build it.")
    else
      match enqueueInputs steps fexists desc rest with
      | .error e => .error e
      | .ok l => .ok (ps ++ l)

/-- Embedding of the backward worklist walk of `set_target` (make.py
lines 240-252).  Python pushes and pops at the right end of `q`; the
embedding pushes and pops at the head — both are a LIFO stack, and only
the set of visited steps is observable downstream. -/
def walkSteps (steps : List StepData) (fexists : String → Bool) :
    List (Fin steps.length) → List (Fin steps.length) →
    Except String (List (Fin steps.length))
  | [], visited => .ok visited
  | i :: rest, visited =>
    if i ∈ visited then
      walkSteps steps fexists rest visited
    else
      match enqueueInputs steps fexists (steps.get i).desc (steps.get i).inputs with
      | .error e => .error e
      | .ok deps => walkSteps steps fexists (deps ++ rest) (i :: visited)
termination_by q visited =>
  (((List.finRange steps.length).filter (fun j => decide (j ∉ visited))).length, q.length)
decreasing_by
  · apply Prod.Lex.right
    simp
  · apply Prod.Lex.left
    exact length_filter_lt_of_mem _ visited (i :: visited) i
      (fun j => by simp [or_comm]) (List.mem_finRange i) (by assumption)

/-- Embedding of the shortcut match (make.py lines 209-211). -/
def shortcutMatches (steps : List StepData) (target : String) : List (Fin steps.length) :=
  (List.finRange steps.length).filter (fun i => (steps.get i).shortcut == target)

/-- Embedding of the inner output loop of the path match (make.py lines
216-220): outputs are relativized to the project root in order
(`relToRoot o = none` models the `ValueError` that
`Path(output).relative_to(project_root)` raises for a path outside the
root); the loop breaks at the first output matching the target. -/
def outputMatchStep (relToRoot : String → Option String) (target : String) :
    List String → Except String Bool
  | [] => .ok false
  | o :: rest =>
    match relToRoot o with
    | none => .error ("ValueError: " ++ o ++ " is not in the subpath of the project root")
    | some r => if r == target then .ok true else outputMatchStep relToRoot target rest

/-- Embedding of the outer step loop of the path match (make.py lines
215-220), collecting every step one of whose outputs matches. -/
def outputMatchesAux (relToRoot : String → Option String) (steps : List StepData)
    (target : String) : List (Fin steps.length) → Except String (List (Fin steps.length))
  | [] => .ok []
  | i :: rest =>
    match outputMatchStep relToRoot target (steps.get i).outputs with
    | .error e => .error e
    | .ok b =>
      match outputMatchesAux relToRoot steps target rest with
      | .error e => .error e
      | .ok l => .ok (if b then i :: l else l)

/-- The match phase of `set_target` (make.py lines 206-220): match the
target against step shortcuts first, else against output paths relative
to the project root. -/
def matchedTargets (relToRoot : String → Option String) (steps : List StepData)
    (target : String) : Except String (List (Fin steps.length)) :=
  let q1 := shortcutMatches steps target
  if q1.isEmpty then outputMatchesAux relToRoot steps target (List.finRange steps.length)
  else .ok q1

/-- Embedding of the `extra_targets` match (make.py lines 236-238). -/
def extraMatches (steps : List StepData) (extra_targets : List String) :
    List (Fin steps.length) :=
  (List.finRange steps.length).filter (fun i => extra_targets.contains (steps.get i).shortcut)

/-- Embedding of `Recipe.set_target` (make.py lines 205-256).
`closeMatches` stands for `difflib.get_close_matches` (Python standard
library, kept abstract), `relToRoot` for relativization against
`fs_utils.project_root` and `fexists` for `Path.exists()`.  Python's
final `new_steps.sort(key=self.steps.index)` sorts the visited set by
original position, i.e. yields the original list filtered to the visited
set; mutation of `self.steps` happens only on this success path, so an
error leaves the step list untouched. -/
def set_target (closeMatches : String → List String → List String)
    (relToRoot : String → Option String) (fexists : String → Bool)
    (steps : List StepData) (target : String) (extra_targets : List String) :
    Except String (List StepData) :=
  match matchedTargets relToRoot steps target with
  | .error e => .error e
  | .ok q2 =>
    if q2.isEmpty then
      let close := closeMatches target (steps.map (fun s => s.shortcut))
      if !close.isEmpty then
        .error (target ++ " is not a valid target. Close matches: " ++
          String.intercalate ", " close ++ ".")
      else
        .error (target ++ " is not a valid target. Valid targets: " ++
          String.intercalate ", " (steps.map (fun s => s.shortcut)) ++ ".")
    else
      match walkSteps steps fexists (q2 ++ extraMatches steps extra_targets) [] with
      | .error e => .error e
      | .ok visited =>
        .ok (((List.finRange steps.length).filter (fun i => visited.contains i)).map steps.get)

/-- Backward reachability over the "step A's output is step B's input"
relation, from a list of root steps — the set `set_target` is specified
to collect. -/
inductive StepReach (steps : List StepData) (roots : List (Fin steps.length)) :
    Fin steps.length → Prop where
  | root {i} : i ∈ roots → StepReach steps roots i
  | dep {i j inp} : StepReach steps roots i → inp ∈ (steps.get i).inputs →
      inp ∈ (steps.get j).outputs → StepReach steps roots j

/-- A step input that no step produces and that does not exist on disk —
the condition under which the walk raises (make.py lines 249-252). -/
def badInput (steps : List StepData) (fexists : String → Bool) (i : Fin steps.length) : Prop :=
  ∃ inp ∈ (steps.get i).inputs, producers steps inp = [] ∧ fexists inp = false

/-! ## `src.py`: `File.update_transitive_includes` (lines 128-145)

The file map `srcs` is an association list keyed by absolute path
strings; `scan()` creates exactly one `File` object per key, so Python's
identity-based set membership on `File`s coincides with membership of
the key, and `transitive_includes` is modelled as the list of visited
keys. -/

/-- The scanned per-file data that `update_transitive_includes` reads. -/
structure SFile where
  path : String
  direct_includes : List String
  system_includes : List String
  main : Bool
deriving DecidableEq

/-- Helper for worklist termination: a successful association-list
lookup means the key is among the keys. -/
theorem lookup_some_mem_keys {β : Type} (l : List (String × β)) (a : String) (b : β)
    (h : l.lookup a = some b) : a ∈ l.map Prod.fst := by
  induction l with
  | nil => simp [List.lookup] at h
  | cons p l ih =>
    rw [List.lookup] at h
    by_cases hap : a = p.1
    · simp [hap]
    · have : (a == p.1) = false := by simp [hap]
      rw [this] at h
      simp only [List.map_cons, List.mem_cons]
      exact Or.inr (ih h)

/-- The mutable state of one `update_transitive_includes` call: the
growing `transitive_includes` (as visited keys), the merged
`system_includes`, the propagated `main` flag, and the warnings printed
for dangling includes. -/
structure TIState where
  transitive_includes : List String
  system_includes : List String
  main : Bool
  warnings : List String
deriving DecidableEq

/-- Embedding of the `system_includes` merge (src.py lines 141-143):
each of the included file's system includes is appended unless already
present. -/
def mergeSys (acc : List String) (incs : List String) : List String :=
  incs.foldl (fun a s => if a.contains s then a else a ++ [s]) acc

/-- Embedding of the worklist loop of `update_transitive_includes`
(src.py lines 131-145).  Python pops at the right end of the queue and
extends at the right end; the embedding pops and pushes at the head —
both are a LIFO stack and only the visited set, flag and warning
multiset are observable.  A path outside the map warns and continues; a
visited file is skipped; otherwise the file is added, its system
includes merged, `main` propagated, and its direct includes enqueued. -/
def updateTIAux (srcs : List (String × SFile)) (selfName : String) :
    List String → TIState → TIState
  | [], st => st
  | p :: rest, st =>
    match hl : srcs.lookup p with
    | none =>
      updateTIAux srcs selfName rest
        { st with warnings := st.warnings ++
            ["Warning: " ++ selfName ++ " includes non-existent \"" ++ p ++ "\""] }
    | some inc =>
      if p ∈ st.transitive_includes then
        updateTIAux srcs selfName rest st
      else
        updateTIAux srcs selfName (inc.direct_includes ++ rest)
          { transitive_includes := st.transitive_includes ++ [p],
            system_includes := mergeSys st.system_includes inc.system_includes,
            main := st.main || inc.main,
            warnings := st.warnings }
termination_by q st =>
  (((srcs.map Prod.fst).filter (fun j => decide (j ∉ st.transitive_includes))).length, q.length)
decreasing_by
  · apply Prod.Lex.right
    simp
  · apply Prod.Lex.right
    simp
  · apply Prod.Lex.left
    exact length_filter_lt_of_mem _ st.transitive_includes (st.transitive_includes ++ [p]) p
      (fun j => by simp [or_comm]) (lookup_some_mem_keys srcs p inc hl) (by assumption)

/-- Embedding of `File.update_transitive_includes` (src.py lines
128-145): clear `transitive_includes`, seed the queue with the direct
includes, and run the worklist starting from the file's own
`system_includes` and `main`. -/
def update_transitive_includes (srcs : List (String × SFile)) (f : SFile) : TIState :=
  updateTIAux srcs f.path
    f.direct_includes
    { transitive_includes := [],
      system_includes := f.system_includes,
      main := f.main,
      warnings := [] }

/-- Reachability over direct local-include edges restricted to the file
map: the set `transitive_includes` is specified to equal.  A path is
reachable when it is a direct include of the start that the map knows,
or a known direct include of a reachable file. -/
inductive IncReach (srcs : List (String × SFile)) (start : List String) : String → Prop where
  | root {p} : p ∈ start → (srcs.lookup p).isSome → IncReach srcs start p
  | step {p q inc} : IncReach srcs start p → srcs.lookup p = some inc →
      q ∈ inc.direct_includes → (srcs.lookup q).isSome → IncReach srcs start q

/-! ## `make.py`: `Recipe.execute` (lines 258-375) as a transition system

The scheduler is single-threaded; the only nondeterminism is which
outstanding process `os.wait()` reports first.  `execute` is modelled as
a small-step relation on the scheduler state; the error paths
(non-zero exit status, watcher interrupt, permission errors) stop the
loop and produce no further transitions, so they need no transition of
their own for the safety properties proved here.  `record_input_hashes`
touches only the hash cache, not the scheduler state. -/

/-- Nonempty intersection of two Python string sets
(`b.outputs & a.inputs` used as a truth value). -/
def intersects (xs ys : List String) : Bool :=
  xs.any (fun x => ys.contains x)

/-- Step `j` blocks step `i` (make.py lines 266-271): they are distinct
and `j`'s outputs intersect `i`'s inputs. -/
def blocksB {n : Nat} (sd : Fin n → StepData) (j i : Fin n) : Bool :=
  (j != i) && intersects (sd j).outputs (sd i).inputs

/-- The scheduler state: per-step `blocker_count`, the ready queue, the
running steps (the values of `pid_to_step`), and the finished steps. -/
structure ExecState (n : Nat) where
  blocker : Fin n → Int
  ready : List (Fin n)
  running : List (Fin n)
  finished : List (Fin n)

/-- Initial `blocker_count` of a step (make.py lines 266-271): the
number of other steps whose outputs intersect its inputs. -/
def initBlocker {n : Nat} (sd : Fin n → StepData) (i : Fin n) : Int :=
  (((List.finRange n).filter (fun j => blocksB sd j i)).length : Int)

/-- The state at the top of the scheduling loop (make.py lines 260-273):
every `blocker_count` computed, zero-blocker steps seeding the ready
queue in step order, nothing running or finished. -/
def initState {n : Nat} (sd : Fin n → StepData) : ExecState n :=
  { blocker := initBlocker sd,
    ready := (List.finRange n).filter (fun i => decide (initBlocker sd i = 0)),
    running := [],
    finished := [] }

/-- Embedding of `on_step_finished` (make.py lines 275-281) applied to a
state in which `a` has already been removed from `ready`/`running`:
every step whose inputs intersect `a`'s outputs (including, per the
source, `a` itself) has its `blocker_count` decremented, and the steps
whose count thereby reaches zero join the ready queue in step order;
`a` joins the finished set. -/
def finishStepState {n : Nat} (sd : Fin n → StepData) (s : ExecState n) (a : Fin n) :
    ExecState n :=
  let blocker' := fun b =>
    if intersects (sd b).inputs (sd a).outputs then s.blocker b - 1 else s.blocker b
  { blocker := blocker',
    ready := s.ready ++ (List.finRange n).filter
      (fun b => intersects (sd b).inputs (sd a).outputs && decide (blocker' b = 0)),
    running := s.running,
    finished := s.finished ++ [a] }

/-- Small-step transitions of the `Recipe.execute` loop (make.py lines
304-371), parametrized by the step table and the concurrency budget
`N = multiprocessing.cpu_count()`.  A dispatch pops the last ready step
and requires a free slot (the `else` branch of line 305); the build
either spawns a process (`dispatch_spawn`) or reports nothing to do, in
which case `on_step_finished` runs immediately (`dispatch_sync`).  A
finish removes an arbitrary running step — whichever pid the OS reports
— and runs `on_step_finished`; the code only waits when no dispatch is
possible (line 305), hence the guard. -/
inductive ExecStep {n : Nat} (sd : Fin n → StepData) (N : Nat) :
    ExecState n → ExecState n → Prop where
  | dispatch_spawn {s : ExecState n} {rest : List (Fin n)} {i : Fin n} :
      s.ready = rest ++ [i] → s.running.length < N →
      ExecStep sd N s { s with ready := rest, running := s.running ++ [i] }
  | dispatch_sync {s : ExecState n} {rest : List (Fin n)} {i : Fin n} :
      s.ready = rest ++ [i] → s.running.length < N →
      ExecStep sd N s (finishStepState sd { s with ready := rest } i)
  | finish_proc {s : ExecState n} {l r : List (Fin n)} {i : Fin n} :
      s.running = l ++ i :: r → (s.ready = [] ∨ N ≤ s.running.length) →
      ExecStep sd N s (finishStepState sd { s with running := l ++ r } i)

/-- States the execute loop can reach from its initial state. -/
def ExecReachable {n : Nat} (sd : Fin n → StepData) (N : Nat) (s : ExecState n) : Prop :=
  Relation.ReflTransGen (ExecStep sd N) (initState sd) s

/-- Counting invariant of the scheduler: for every unfinished step, its
`blocker_count` equals the number of its still-unfinished blockers. -/
def CountInv {n : Nat} (sd : Fin n → StepData) (s : ExecState n) : Prop :=
  ∀ i, i ∉ s.finished →
    s.blocker i = (((List.finRange n).filter
      (fun j => blocksB sd j i && decide (j ∉ s.finished))).length : Int)

/-- Safety invariant of the scheduler: every step that has ever been
ready, dispatched or finished had all of its blockers finished. -/
def SafeInv {n : Nat} (sd : Fin n → StepData) (s : ExecState n) : Prop :=
  ∀ i, (i ∈ s.ready ∨ i ∈ s.running ∨ i ∈ s.finished) →
    ∀ j, blocksB sd j i = true → j ∈ s.finished

/-- Full scheduler invariant: counting, safety, and each step occurring
at most once across the ready queue, the running set and the finished
set. -/
def ExecInv {n : Nat} (sd : Fin n → StepData) (s : ExecState n) : Prop :=
  CountInv sd s ∧ SafeInv sd s ∧ (s.ready ++ s.running ++ s.finished).Nodup

/-! ## Helper lemmas -/

/-- The accumulating fold of `load_extensions` keeps exactly the
successful loads, in order. -/
theorem load_extensions_eq {M : Type} (loads : List (Except String M)) :
    load_extensions loads = loads.filterMap Except.toOption := by
  suffices h : ∀ acc : List M,
      loads.foldl (fun acc l =>
        match l with
        | .ok m => acc ++ [m]
        | .error _ => acc) acc = acc ++ loads.filterMap Except.toOption by
    simpa [load_extensions] using h []
  induction loads with
  | nil => intro acc; simp
  | cons l rest ih =>
    intro acc
    cases l with
    | ok m => simp [List.filterMap_cons, ih, Except.toOption]
    | error e => simp [List.filterMap_cons, ih, Except.toOption]

/-- A hook that raises, after a prefix of hooks that all succeed, makes
the whole hook loop propagate the error. -/
theorem run_extension_hooks_error_propagates {α : Type}
    (pre post : List (Option (α → Except String α))) (f : α → Except String α)
    (msg : String) :
    ∀ r v : α, run_extension_hooks pre r = .ok v → f v = .error msg →
      run_extension_hooks (pre ++ some f :: post) r = .error msg := by
  induction pre with
  | nil =>
    intro r v hpre hf
    simp only [run_extension_hooks] at hpre
    cases hpre
    simp only [List.nil_append, run_extension_hooks]
    rw [hf]
  | cons o rest ih =>
    intro r v hpre hf
    cases o with
    | none =>
      simp only [run_extension_hooks] at hpre ⊢
      exact ih r v hpre hf
    | some g =>
      simp only [run_extension_hooks, List.cons_append] at hpre ⊢
      cases hg : g r with
      | error e =>
        rw [hg] at hpre
        simp at hpre
      | ok r2 =>
        rw [hg] at hpre
        exact ih r2 v hpre hf

/-! ## Claim theorems -/

/-- C10: for every non-empty variant name `v` the assembled compile,
link and run argument lists equal the variant-specific list concatenated
with the variant-agnostic list in that order, and for the empty variant
name they are the variant-agnostic list exactly once. -/
theorem C10_variant_args (f : FileArgs) (v : String) (h : v ≠ "") :
    (build_compile_args f v = f.compile_args v ++ f.compile_args "" ∧
     build_link_args f v = f.link_args v ++ f.link_args "" ∧
     build_run_args f v = f.run_args v ++ f.run_args "") ∧
    (build_compile_args f "" = f.compile_args "" ∧
     build_link_args f "" = f.link_args "" ∧
     build_run_args f "" = f.run_args "") := by
  refine ⟨⟨?_, ?_, ?_⟩, ?_, ?_, ?_⟩ <;>
    simp [build_compile_args, build_link_args, build_run_args, h]

/-- C10 witness: the theorem evaluated at a concrete argument table and
the variant name "fast". -/
theorem C10_variant_args_witness :
    ("fast" : String) ≠ "" ∧
    build_compile_args
      ⟨fun _ => [],
       fun bt => if bt = "fast" then ["-O1"] else if bt = "" then ["-W"] else [],
       fun _ => []⟩ "fast"
      = (fun bt => if bt = "fast" then ["-O1"] else if bt = "" then ["-W"] else []) "fast" ++
        (fun bt => if bt = "fast" then ["-O1"] else if bt = "" then ["-W"] else []) "" := by
  refine ⟨by decide, ?_⟩
  exact (C10_variant_args
    ⟨fun _ => [],
     fun bt => if bt = "fast" then ["-O1"] else if bt = "" then ["-W"] else [],
     fun _ => []⟩ "fast" (by decide)).1.1

/-- C6 counterexample: adding a second step whose shortcut equals an
existing step's shortcut succeeds — `add_step` raises nothing and the
recipe then holds two steps with the same shortcut "x", contradicting
the claim that this is a `ConfigurationError` raised before
scheduling. -/
theorem C6_counterexample :
    add_step [] ⟨some "f", "m"⟩ ["o1"] [] (some "d1") (some "x")
      = .ok [⟨"d1", "x", ["o1"], [], 0⟩] ∧
    add_step [⟨"d1", "x", ["o1"], [], 0⟩] ⟨some "f", "m"⟩ ["o2"] [] (some "d2") (some "x")
      = .ok [⟨"d1", "x", ["o1"], [], 0⟩, ⟨"d2", "x", ["o2"], [], 1⟩] ∧
    (⟨"d1", "x", ["o1"], [], 0⟩ : StepData).shortcut
      = (⟨"d2", "x", ["o2"], [], 1⟩ : StepData).shortcut := by
  exact ⟨by rfl, by rfl, by rfl⟩

/-- C6 amended: `add_step` performs no duplicate-shortcut check — with a
non-empty description and a non-empty, slash-free shortcut it always
appends the new step (with `id` equal to the current step count), even
when another step in the recipe already carries the same shortcut; the
only errors `Step` construction raises are for a missing desc/shortcut
on an action without an intrinsic name and for a slash in the
shortcut. -/
theorem C6_amended (steps : List StepData) (bf : BuildFunc) (outputs inputs : List String)
    (d s : String) (hd : d ≠ "") (hs : s ≠ "") (hslash : ('/' : Char) ∉ s.toList) :
    add_step steps bf outputs inputs (some d) (some s)
      = .ok (steps ++ [⟨d, s, outputs, inputs, steps.length⟩]) := by
  simp [add_step, mkStep, Option.getD, hd, hs]
  rw [if_neg (show ¬(('/' : Char) ∈ s.data) from hslash)]
  rfl

/-- C6 witness: the amended theorem applied to a recipe that already
contains the shortcut "x". -/
theorem C6_amended_witness :
    ("d2" : String) ≠ "" ∧ ("x" : String) ≠ "" ∧ ('/' : Char) ∉ "x".toList ∧
    add_step [⟨"d1", "x", ["o1"], [], 0⟩] ⟨none, "m"⟩ ["o2"] [] (some "d2") (some "x")
      = .ok ([⟨"d1", "x", ["o1"], [], 0⟩] ++ [⟨"d2", "x", ["o2"], [], 1⟩]) := by
  refine ⟨by decide, by decide, by decide, ?_⟩
  exact C6_amended [⟨"d1", "x", ["o1"], [], 0⟩] ⟨none, "m"⟩ ["o2"] [] "d2" "x"
    (by decide) (by decide) (by decide)

/-- C5 counterexample: for the file `root/sub/a.cc` including
"common.hh" on a filesystem where only `root/common.hh` exists, the
scanner records `root/sub/common.hh` — the file-relative resolution,
although no file exists there — whereas the claimed fallback resolution
would pick `root/common.hh`.  There is no existence check and no
project-root fallback in the code. -/
theorem C5_counterexample :
    scanDirectIncludes ["root", "sub", "a.cc"] [SrcLine.localInclude "common.hh"]
      = [["root", "sub", "common.hh"]] ∧
    specResolveInclude (fun p => decide (p = ["root", "common.hh"])) ["root"]
      ["root", "sub", "a.cc"] "common.hh" = ["root", "common.hh"] ∧
    (fun p : PathC => decide (p = ["root", "common.hh"])) ["root", "sub", "common.hh"] = false ∧
    (["root", "sub", "common.hh"] : PathC) ≠ ["root", "common.hh"] := by
  exact ⟨by decide, by decide, by decide, by decide⟩

/-- C5 amended: for every scanned file and every local include directive
in it, the scanner records, unconditionally and without consulting any
filesystem, the include resolved relative to the directory of the
including file (with `.`/`..` processing); there is no fallback to the
project root. -/
theorem C5_amended (path : PathC) (lines : List SrcLine) :
    scanDirectIncludes path lines =
      lines.filterMap (fun l =>
        match l with
        | SrcLine.localInclude name => some (includeDep path name)
        | _ => none) ∧
    ∀ name, includeDep path name = resolveDots (path.dropLast ++ splitPath name) := by
  refine ⟨?_, fun _ => rfl⟩
  suffices h : ∀ acc : List PathC,
      lines.foldl (fun acc l =>
        match l with
        | SrcLine.localInclude name => acc ++ [includeDep path name]
        | _ => acc) acc
      = acc ++ lines.filterMap (fun l =>
          match l with
          | SrcLine.localInclude name => some (includeDep path name)
          | _ => none) by
    simpa [scanDirectIncludes] using h []
  induction lines with
  | nil => intro acc; simp
  | cons l rest ih =>
    intro acc
    cases l <;> simp [List.filterMap_cons, ih]

/-- C4 counterexample: a lifecycle hook that raises during planning is
not caught — the error propagates out of the hook loop of `recipe()`,
so the remaining extension (which would have added a step) is never
consulted and planning aborts, contradicting the claim that hook errors
are logged as warnings and planning continues. -/
theorem C4_counterexample :
    run_extension_hooks
      [some (fun _ => Except.error "extension hook failure"),
       some (fun r => Except.ok (r ++ [(⟨"d", "s", [], [], 0⟩ : StepData)]))]
      ([] : List StepData)
      = Except.error "extension hook failure" := by
  rfl

/-- C4 amended: exceptions are caught and logged during extension
loading — `load_extensions` keeps exactly the successfully loaded
modules, in order, skipping every load that raised — but an exception
raised by a lifecycle hook inside `recipe()` propagates and aborts
planning: if every hook before it succeeds and the hook raises, the
whole hook loop reports that error. -/
theorem C4_amended {M α : Type} (loads : List (Except String M))
    (pre post : List (Option (α → Except String α))) (f : α → Except String α)
    (r v : α) (msg : String)
    (hpre : run_extension_hooks pre r = .ok v) (hf : f v = .error msg) :
    load_extensions loads = loads.filterMap Except.toOption ∧
    run_extension_hooks (pre ++ some f :: post) r = .error msg :=
  ⟨load_extensions_eq loads,
   run_extension_hooks_error_propagates pre post f msg r v hpre hf⟩

/-- C4 witness: the amended theorem at concrete loads and hooks. -/
theorem C4_amended_witness :
    run_extension_hooks [some (fun r => Except.ok (r ++ ["p"]))] ([] : List String)
      = .ok ["p"] ∧
    ((fun _ => Except.error "boom") : List String → Except String (List String)) ["p"]
      = .error "boom" ∧
    (load_extensions [Except.ok "a", Except.error "x", Except.ok "b"]
        = [Except.ok "a", Except.error "x", Except.ok "b"].filterMap Except.toOption ∧
     run_extension_hooks
       ([some (fun r => Except.ok (r ++ ["p"]))] ++
         some ((fun _ => Except.error "boom") : List String → Except String (List String)) :: [])
       ([] : List String) = .error "boom") := by
  refine ⟨by rfl, by rfl, ?_⟩
  exact C4_amended [Except.ok "a", Except.error "x", Except.ok "b"]
    [some (fun r => Except.ok (r ++ ["p"]))] []
    ((fun _ => Except.error "boom") : List String → Except String (List String))
    [] ["p"] "boom" (by rfl) (by rfl)

/-- C1: for a step all of whose outputs exist and whose fingerprint
cache record exists under the step's shortcut, a mtime-candidate input
(existing, not dir-skipped, not older than the minimum output mtime)
whose recorded fingerprint equals its current fingerprint is not
reported dirty, a candidate whose current fingerprint differs from the
recorded one is reported dirty, and when no input is a candidate the
step is clean (`dirty_inputs` is empty) and `build_if_needed` skips the
build. -/
theorem C1_dirty_inputs (md5 : String → String) (fs : FS) (st : StepData)
    (record : List (String × String))
    (store : String → Option (List (String × String)))
    (hstore : store st.shortcut = some record)
    (hout : ∀ out ∈ st.outputs, fs.exists_ out = true) :
    (∀ inp ∈ st.inputs, isCandidate fs st inp = true →
        ((hexdigest md5 fs inp = recordedHash record inp →
            inp ∉ dirty_inputs md5 fs st store) ∧
         (hexdigest md5 fs inp ≠ recordedHash record inp →
            inp ∈ dirty_inputs md5 fs st store))) ∧
    ((∀ inp ∈ st.inputs, isCandidate fs st inp = false) → st.outputs ≠ [] →
        dirty_inputs md5 fs st store = [] ∧
        build_if_needed_runs md5 fs st store = false) := by
  have hany : (st.outputs.any (fun out => !fs.exists_ out)) = false := by
    rw [List.any_eq_false]
    intro out hmem
    simp [hout out hmem]
  constructor
  · intro inp hin hcand
    have hupd : inp ∈ st.inputs.filter (isCandidate fs st) :=
      List.mem_filter.mpr ⟨hin, hcand⟩
    have hne : (st.inputs.filter (isCandidate fs st)).isEmpty = false := by
      rw [List.isEmpty_eq_false]
      exact List.ne_nil_of_mem hupd
    constructor
    · intro heq hmemdirty
      rw [dirty_inputs, hany] at hmemdirty
      simp only [Bool.false_eq_true, if_false, hne, hstore] at hmemdirty
      have := (List.mem_filter.mp hmemdirty).2
      rw [heq] at this
      simp at this
    · intro hneq
      rw [dirty_inputs, hany]
      simp only [Bool.false_eq_true, if_false, hne, hstore]
      exact List.mem_filter.mpr ⟨hupd, by simpa using hneq⟩
  · intro hall houtne
    have hfil : st.inputs.filter (isCandidate fs st) = [] := by
      rw [List.filter_eq_nil_iff]
      intro inp hmem
      simp [hall inp hmem]
    have hdirty : dirty_inputs md5 fs st store = [] := by
      rw [dirty_inputs, hany]
      simp [hfil]
    refine ⟨hdirty, ?_⟩
    rw [build_if_needed_runs]
    have h1 : (st.inputs.isEmpty && st.outputs.any (fun out => !fs.exists_ out)) = false := by
      rw [hany]; simp
    rw [h1]
    have h2 : st.outputs.isEmpty = false := by
      rw [List.isEmpty_eq_false]; exact houtne
    simp [h2, hdirty]

/-- C1 witness: a concrete step with one existing output, one candidate
input and a matching recorded fingerprint; the input is not reported
dirty. -/
theorem C1_dirty_inputs_witness :
    ((fun k => if k = "s" then some [("in1", "#in1")] else none) :
        String → Option (List (String × String))) "s" = some [("in1", "#in1")] ∧
    (∀ out ∈ (⟨"d", "s", ["out"], ["in1"], 0⟩ : StepData).outputs,
      (⟨fun p => decide (p = "out" ∨ p = "in1"), fun _ => false, fun _ => 5,
        fun p => p, fun _ => "", fun _ _ => false⟩ : FS).exists_ out = true) ∧
    "in1" ∉ dirty_inputs (fun s => "#" ++ s)
      ⟨fun p => decide (p = "out" ∨ p = "in1"), fun _ => false, fun _ => 5,
        fun p => p, fun _ => "", fun _ _ => false⟩
      ⟨"d", "s", ["out"], ["in1"], 0⟩
      (fun k => if k = "s" then some [("in1", "#in1")] else none) := by
  refine ⟨by decide, by decide, ?_⟩
  exact (((C1_dirty_inputs (fun s => "#" ++ s)
      ⟨fun p => decide (p = "out" ∨ p = "in1"), fun _ => false, fun _ => 5,
        fun p => p, fun _ => "", fun _ _ => false⟩
      ⟨"d", "s", ["out"], ["in1"], 0⟩
      [("in1", "#in1")]
      (fun k => if k = "s" then some [("in1", "#in1")] else none)
      (by decide) (by decide)).1 "in1" (by decide) (by decide)).1 (by decide))

/-! ### Worklist lemmas for `set_target` -/

/-- Membership in `producers` is exactly the output-edge condition. -/
theorem mem_producers {steps : List StepData} {inp : String} {j : Fin steps.length} :
    j ∈ producers steps inp ↔ inp ∈ (steps.get j).outputs := by
  simp [producers]

/-- When `enqueueInputs` raises, some input has no producer and does not
exist. -/
theorem enqueueInputs_error_bad (steps : List StepData) (fexists : String → Bool)
    (desc : String) :
    ∀ (inputs : List String) (e : String),
      enqueueInputs steps fexists desc inputs = .error e →
      ∃ inp ∈ inputs, producers steps inp = [] ∧ fexists inp = false := by
  intro inputs
  induction inputs with
  | nil => intro e h; simp [enqueueInputs] at h
  | cons inp rest ih =>
    intro e h
    simp only [enqueueInputs] at h
    by_cases hps : (producers steps inp).isEmpty
    · rw [if_pos hps] at h
      by_cases hex : fexists inp = true
      · rw [if_pos hex] at h
        obtain ⟨inp2, hmem, hrest⟩ := ih e h
        exact ⟨inp2, List.mem_cons_of_mem _ hmem, hrest⟩
      · exact ⟨inp, List.mem_cons_self inp rest, List.isEmpty_iff.mp hps,
          by simpa using hex⟩
    · rw [if_neg hps] at h
      cases hrec : enqueueInputs steps fexists desc rest with
      | error e2 =>
        obtain ⟨inp2, hmem, hrest⟩ := ih e2 hrec
        exact ⟨inp2, List.mem_cons_of_mem _ hmem, hrest⟩
      | ok l => rw [hrec] at h; cases h

/-- When `enqueueInputs` succeeds, the produced queue is exactly the
producers of the step's inputs, and every producerless input exists. -/
theorem enqueueInputs_ok_spec (steps : List StepData) (fexists : String → Bool)
    (desc : String) :
    ∀ (inputs : List String) (l : List (Fin steps.length)),
      enqueueInputs steps fexists desc inputs = .ok l →
      (∀ j, j ∈ l ↔ ∃ inp ∈ inputs, j ∈ producers steps inp) ∧
      (∀ inp ∈ inputs, producers steps inp = [] → fexists inp = true) := by
  intro inputs
  induction inputs with
  | nil =>
    intro l h
    simp only [enqueueInputs] at h
    cases h
    exact ⟨fun j => by simp, fun inp h => by cases h⟩
  | cons inp rest ih =>
    intro l h
    simp only [enqueueInputs] at h
    by_cases hps : (producers steps inp).isEmpty
    · rw [if_pos hps] at h
      by_cases hex : fexists inp = true
      · rw [if_pos hex] at h
        obtain ⟨hiff, hgd⟩ := ih l h
        have hempty : producers steps inp = [] := List.isEmpty_iff.mp hps
        refine ⟨fun j => ?_, fun inp2 hm => ?_⟩
        · rw [hiff j]
          constructor
          · rintro ⟨inp2, hm, hp⟩
            exact ⟨inp2, List.mem_cons_of_mem _ hm, hp⟩
          · rintro ⟨inp2, hm, hp⟩
            rcases List.mem_cons.mp hm with h2 | h2
            · subst h2; rw [hempty] at hp; cases hp
            · exact ⟨inp2, h2, hp⟩
        · rcases List.mem_cons.mp hm with h2 | h2
          · subst h2; intro _; exact hex
          · exact hgd inp2 h2
      · rw [if_neg hex] at h; cases h
    · rw [if_neg hps] at h
      cases hrec : enqueueInputs steps fexists desc rest with
      | error e => rw [hrec] at h; cases h
      | ok l2 =>
        rw [hrec] at h
        cases h
        obtain ⟨hiff, hgd⟩ := ih l2 hrec
        refine ⟨fun j => ?_, fun inp2 hm => ?_⟩
        · rw [List.mem_append]
          constructor
          · rintro (hp | hl2)
            · exact ⟨inp, List.mem_cons_self inp rest, hp⟩
            · obtain ⟨inp2, hm, hp⟩ := (hiff j).mp hl2
              exact ⟨inp2, List.mem_cons_of_mem _ hm, hp⟩
          · rintro ⟨inp2, hm, hp⟩
            rcases List.mem_cons.mp hm with h2 | h2
            · subst h2; exact Or.inl hp
            · exact Or.inr ((hiff j).mpr ⟨inp2, h2, hp⟩)
        · rcases List.mem_cons.mp hm with h2 | h2
          · subst h2; intro hempty; rw [hempty] at hps; simp at hps
          · exact hgd inp2 h2

/-- When every producerless input exists, `enqueueInputs` succeeds. -/
theorem enqueueInputs_ok_exists (steps : List StepData) (fexists : String → Bool)
    (desc : String) :
    ∀ inputs : List String,
      (∀ inp ∈ inputs, producers steps inp = [] → fexists inp = true) →
      ∃ l, enqueueInputs steps fexists desc inputs = .ok l := by
  intro inputs
  induction inputs with
  | nil => intro _; exact ⟨[], rfl⟩
  | cons inp rest ih =>
    intro hgd
    obtain ⟨l, hl⟩ := ih (fun i hm => hgd i (List.mem_cons_of_mem _ hm))
    by_cases hps : (producers steps inp).isEmpty
    · have hex : fexists inp = true :=
        hgd inp (List.mem_cons_self inp rest) (List.isEmpty_iff.mp hps)
      refine ⟨l, ?_⟩
      simp only [enqueueInputs]
      rw [if_pos hps, if_pos hex]
      exact hl
    · refine ⟨producers steps inp ++ l, ?_⟩
      simp only [enqueueInputs]
      rw [if_neg hps, hl]

/-- The backward walk, run on a queue of reachable steps with a closed
visited set, succeeds when no reachable step has a bad input, and its
result contains the queue and visited set, is sound for reachability and
closed under dependency edges. -/
theorem walkSteps_ok (steps : List StepData) (fexists : String → Bool)
    (roots : List (Fin steps.length))
    (hgood : ∀ i, StepReach steps roots i → ¬ badInput steps fexists i) :
    ∀ q visited : List (Fin steps.length),
    (∀ i ∈ q, StepReach steps roots i) →
    (∀ i ∈ visited, StepReach steps roots i) →
    (∀ i ∈ visited, ∀ inp ∈ (steps.get i).inputs, ∀ j ∈ producers steps inp,
        j ∈ visited ∨ j ∈ q) →
    ∃ v, walkSteps steps fexists q visited = .ok v ∧
      (∀ i ∈ visited, i ∈ v) ∧ (∀ i ∈ q, i ∈ v) ∧
      (∀ i ∈ v, StepReach steps roots i) ∧
      (∀ i ∈ v, ∀ inp ∈ (steps.get i).inputs, ∀ j ∈ producers steps inp, j ∈ v) := by
  intro q visited
  induction q, visited using walkSteps.induct steps fexists with
  | case1 visited =>
    intro _ hv hc
    refine ⟨visited, by rw [walkSteps], fun i h => h,
      fun i h => absurd h (List.not_mem_nil i), hv, ?_⟩
    intro i hi inp hinp j hj
    rcases hc i hi inp hinp j hj with h | h
    · exact h
    · cases h
  | case2 i rest visited hmem ih =>
    intro hq hv hc
    obtain ⟨v, heq, h1, h2, h3, h4⟩ := ih
      (fun j hj => hq j (List.mem_cons_of_mem _ hj)) hv
      (fun i' hi' inp hinp j hj => by
        rcases hc i' hi' inp hinp j hj with h | h
        · exact Or.inl h
        · rcases List.mem_cons.mp h with h2 | h2
          · exact Or.inl (h2 ▸ hmem)
          · exact Or.inr h2)
    refine ⟨v, ?_, h1, ?_, h3, h4⟩
    · rw [walkSteps, if_pos hmem]; exact heq
    · intro j hj
      rcases List.mem_cons.mp hj with h | h
      · exact h ▸ h1 i hmem
      · exact h2 j h
  | case3 i rest visited hmem e henq =>
    intro hq _ _
    exfalso
    have hreach : StepReach steps roots i := hq i (List.mem_cons_self i rest)
    obtain ⟨inp, hm, hpe, hfe⟩ := enqueueInputs_error_bad steps fexists _ _ e henq
    exact hgood i hreach ⟨inp, hm, hpe, hfe⟩
  | case4 i rest visited hmem l henq ih =>
    intro hq hv hc
    have hreachi : StepReach steps roots i := hq i (List.mem_cons_self i rest)
    obtain ⟨hiff, _⟩ := enqueueInputs_ok_spec steps fexists _ _ l henq
    obtain ⟨v, heq, h1, h2, h3, h4⟩ := ih
      (fun j hj => by
        rcases List.mem_append.mp hj with h | h
        · obtain ⟨inp, hm, hp⟩ := (hiff j).mp h
          exact StepReach.dep hreachi hm (mem_producers.mp hp)
        · exact hq j (List.mem_cons_of_mem _ h))
      (fun j hj => by
        rcases List.mem_cons.mp hj with h | h
        · exact h ▸ hreachi
        · exact hv j h)
      (fun i' hi' inp hinp j hj => by
        rcases List.mem_cons.mp hi' with h | h
        · subst h
          exact Or.inr (List.mem_append.mpr (Or.inl ((hiff j).mpr ⟨inp, hinp, hj⟩)))
        · rcases hc i' h inp hinp j hj with h2 | h2
          · exact Or.inl (List.mem_cons_of_mem _ h2)
          · rcases List.mem_cons.mp h2 with h3 | h3
            · exact Or.inl (h3 ▸ List.mem_cons_self i visited)
            · exact Or.inr (List.mem_append.mpr (Or.inr h3)))
    refine ⟨v, ?_, fun j hj => h1 j (List.mem_cons_of_mem _ hj), ?_, h3, h4⟩
    · rw [walkSteps, if_neg hmem, henq]; exact heq
    · intro j hj
      rcases List.mem_cons.mp hj with h | h
      · exact h ▸ h1 i (List.mem_cons_self i visited)
      · exact h2 j (List.mem_append.mpr (Or.inr h))

/-- When the backward walk returns a visited set, that set contains the
queue, is sound for reachability, closed under dependency edges, and
free of bad inputs. -/
theorem walkSteps_ok_result (steps : List StepData) (fexists : String → Bool)
    (roots : List (Fin steps.length)) :
    ∀ q visited : List (Fin steps.length), ∀ v,
      walkSteps steps fexists q visited = .ok v →
      (∀ i ∈ q, StepReach steps roots i) →
      (∀ i ∈ visited, StepReach steps roots i) →
      (∀ i ∈ visited, ∀ inp ∈ (steps.get i).inputs, ∀ j ∈ producers steps inp,
          j ∈ visited ∨ j ∈ q) →
      (∀ i ∈ visited, ¬ badInput steps fexists i) →
      (∀ i ∈ visited, i ∈ v) ∧ (∀ i ∈ q, i ∈ v) ∧
      (∀ i ∈ v, StepReach steps roots i) ∧
      (∀ i ∈ v, ∀ inp ∈ (steps.get i).inputs, ∀ j ∈ producers steps inp, j ∈ v) ∧
      (∀ i ∈ v, ¬ badInput steps fexists i) := by
  intro q visited
  induction q, visited using walkSteps.induct steps fexists with
  | case1 visited =>
    intro v heq _ hv hc hb
    rw [walkSteps] at heq
    cases heq
    refine ⟨fun i h => h, fun i h => absurd h (List.not_mem_nil i), hv, ?_, hb⟩
    intro i hi inp hinp j hj
    rcases hc i hi inp hinp j hj with h | h
    · exact h
    · cases h
  | case2 i rest visited hmem ih =>
    intro v heq hq hv hc hb
    rw [walkSteps, if_pos hmem] at heq
    obtain ⟨h1, h2, h3, h4, h5⟩ := ih v heq
      (fun j hj => hq j (List.mem_cons_of_mem _ hj)) hv
      (fun i' hi' inp hinp j hj => by
        rcases hc i' hi' inp hinp j hj with h | h
        · exact Or.inl h
        · rcases List.mem_cons.mp h with h2 | h2
          · exact Or.inl (h2 ▸ hmem)
          · exact Or.inr h2) hb
    refine ⟨h1, ?_, h3, h4, h5⟩
    intro j hj
    rcases List.mem_cons.mp hj with h | h
    · exact h ▸ h1 i hmem
    · exact h2 j h
  | case3 i rest visited hmem e henq =>
    intro v heq _ _ _ _
    rw [walkSteps, if_neg hmem, henq] at heq
    cases heq
  | case4 i rest visited hmem l henq ih =>
    intro v heq hq hv hc hb
    rw [walkSteps, if_neg hmem, henq] at heq
    have hreachi : StepReach steps roots i := hq i (List.mem_cons_self i rest)
    obtain ⟨hiff, hgd⟩ := enqueueInputs_ok_spec steps fexists _ _ l henq
    have hnotbad : ¬ badInput steps fexists i := by
      rintro ⟨inp, hm, hpe, hfe⟩
      rw [hgd inp hm hpe] at hfe
      cases hfe
    obtain ⟨h1, h2, h3, h4, h5⟩ := ih v heq
      (fun j hj => by
        rcases List.mem_append.mp hj with h | h
        · obtain ⟨inp, hm, hp⟩ := (hiff j).mp h
          exact StepReach.dep hreachi hm (mem_producers.mp hp)
        · exact hq j (List.mem_cons_of_mem _ h))
      (fun j hj => by
        rcases List.mem_cons.mp hj with h | h
        · exact h ▸ hreachi
        · exact hv j h)
      (fun i' hi' inp hinp j hj => by
        rcases List.mem_cons.mp hi' with h | h
        · subst h
          exact Or.inr (List.mem_append.mpr (Or.inl ((hiff j).mpr ⟨inp, hinp, hj⟩)))
        · rcases hc i' h inp hinp j hj with h2 | h2
          · exact Or.inl (List.mem_cons_of_mem _ h2)
          · rcases List.mem_cons.mp h2 with h3 | h3
            · exact Or.inl (h3 ▸ List.mem_cons_self i visited)
            · exact Or.inr (List.mem_append.mpr (Or.inr h3)))
      (fun j hj => by
        rcases List.mem_cons.mp hj with h | h
        · exact h ▸ hnotbad
        · exact hb j h)
    refine ⟨fun j hj => h1 j (List.mem_cons_of_mem _ hj), ?_, h3, h4, h5⟩
    intro j hj
    rcases List.mem_cons.mp hj with h | h
    · exact h ▸ h1 i (List.mem_cons_self i visited)
    · exact h2 j (List.mem_append.mpr (Or.inr h))

/-- C3: when the target matches (by shortcut or by output path relative
to the project root, i.e. the match phase returns a non-empty root set),
`set_target` without bad inputs replaces the step list with exactly the
steps backward-reachable from the matched steps together with the
`extra_targets` matches — as a subsequence of the original list, hence
preserving relative order — and raises when some backward-reachable
step has an input that no step produces and that does not exist. -/
theorem C3_set_target (closeMatches : String → List String → List String)
    (relToRoot : String → Option String) (fexists : String → Bool)
    (steps : List StepData) (target : String) (extra_targets : List String)
    (roots : List (Fin steps.length))
    (hmatch : matchedTargets relToRoot steps target = .ok roots)
    (hne : roots ≠ []) :
    ((∀ i, StepReach steps (roots ++ extraMatches steps extra_targets) i →
        ¬ badInput steps fexists i) →
      ∃ kept : List (Fin steps.length),
        set_target closeMatches relToRoot fexists steps target extra_targets
          = .ok (kept.map steps.get) ∧
        kept.Sublist (List.finRange steps.length) ∧
        (∀ i, i ∈ kept ↔ StepReach steps (roots ++ extraMatches steps extra_targets) i)) ∧
    ((∃ i, StepReach steps (roots ++ extraMatches steps extra_targets) i ∧
        badInput steps fexists i) →
      ∃ e, set_target closeMatches relToRoot fexists steps target extra_targets
        = .error e) := by
  have hemp : roots.isEmpty = false := List.isEmpty_eq_false.mpr hne
  constructor
  · intro hgood
    obtain ⟨v, heq, _, h2, h3, h4⟩ :=
      walkSteps_ok steps fexists (roots ++ extraMatches steps extra_targets) hgood
        (roots ++ extraMatches steps extra_targets) []
        (fun i h => StepReach.root h)
        (fun i h => absurd h (List.not_mem_nil i))
        (fun i h => absurd h (List.not_mem_nil i))
    have hcomp : ∀ i, StepReach steps (roots ++ extraMatches steps extra_targets) i →
        i ∈ v := by
      intro i h
      induction h with
      | root hmem => exact h2 _ hmem
      | dep _ hin hout ih => exact h4 _ ih _ hin _ (mem_producers.mpr hout)
    refine ⟨(List.finRange steps.length).filter (fun i => v.contains i), ?_,
      List.filter_sublist _, ?_⟩
    · rw [set_target, hmatch]
      simp only [hemp, Bool.false_eq_true, if_false, heq]
    · intro i
      simp only [List.mem_filter, List.mem_finRange, true_and]
      constructor
      · intro h
        exact h3 i (by simpa using h)
      · intro h
        simpa using hcomp i h
  · rintro ⟨i, hreach, hbad⟩
    cases hwalk : walkSteps steps fexists (roots ++ extraMatches steps extra_targets) [] with
    | error e =>
      refine ⟨e, ?_⟩
      rw [set_target, hmatch]
      simp only [hemp, Bool.false_eq_true, if_false, hwalk]
    | ok v =>
      exfalso
      obtain ⟨_, h2, _, h4, h5⟩ :=
        walkSteps_ok_result steps fexists (roots ++ extraMatches steps extra_targets)
          (roots ++ extraMatches steps extra_targets) [] v hwalk
          (fun i h => StepReach.root h)
          (fun i h => absurd h (List.not_mem_nil i))
          (fun i h => absurd h (List.not_mem_nil i))
          (fun i h => absurd h (List.not_mem_nil i))
      have hcomp : ∀ i, StepReach steps (roots ++ extraMatches steps extra_targets) i →
          i ∈ v := by
        intro i h
        induction h with
        | root hmem => exact h2 _ hmem
        | dep _ hin hout ih => exact h4 _ ih _ hin _ (mem_producers.mpr hout)
      exact h5 i (hcomp i hreach) hbad

/-- C3 witness: a two-step recipe (compile then link); targeting "link"
prunes to exactly the two steps reachable backward from the link
step. -/
theorem C3_set_target_witness :
    matchedTargets (fun _ => none)
      [⟨"c", "compile", ["obj"], ["src"], 0⟩, ⟨"l", "link", ["bin"], ["obj"], 1⟩]
      "link" = .ok ([1] : List (Fin 2)) ∧
    ([1] : List (Fin 2)) ≠ [] ∧
    (∃ kept : List (Fin 2),
      set_target (fun _ _ => []) (fun _ => none) (fun p => decide (p = "src"))
        [⟨"c", "compile", ["obj"], ["src"], 0⟩, ⟨"l", "link", ["bin"], ["obj"], 1⟩]
        "link" []
        = .ok (kept.map
            ([⟨"c", "compile", ["obj"], ["src"], 0⟩,
              ⟨"l", "link", ["bin"], ["obj"], 1⟩] : List StepData).get) ∧
      kept.Sublist (List.finRange 2) ∧
      (∀ i, i ∈ kept ↔ StepReach
        [⟨"c", "compile", ["obj"], ["src"], 0⟩, ⟨"l", "link", ["bin"], ["obj"], 1⟩]
        ([1] : List (Fin 2)) i)) := by
  refine ⟨by rfl, by decide, ?_⟩
  exact (C3_set_target (fun _ _ => []) (fun _ => none) (fun p => decide (p = "src"))
    [⟨"c", "compile", ["obj"], ["src"], 0⟩, ⟨"l", "link", ["bin"], ["obj"], 1⟩]
    "link" [] ([1] : List (Fin 2)) (by rfl) (by decide)).1
    (by
      intro i _
      fin_cases i <;> (unfold badInput; decide))

/-! ### The no-match error path of `set_target` -/

/-- When every output of a list relativizes and none matches the target,
the inner output loop reports no match. -/
theorem outputMatchStep_none (relToRoot : String → Option String) (target : String) :
    ∀ outs : List String,
      (∀ o ∈ outs, ∃ r, relToRoot o = some r ∧ r ≠ target) →
      outputMatchStep relToRoot target outs = .ok false := by
  intro outs
  induction outs with
  | nil => intro _; rfl
  | cons o rest ih =>
    intro h
    obtain ⟨r, hr, hne⟩ := h o (List.mem_cons_self o rest)
    have hb : (r == target) = false := by simp [hne]
    simp only [outputMatchStep, hr, hb, Bool.false_eq_true, if_false]
    exact ih (fun o2 hm => h o2 (List.mem_cons_of_mem _ hm))

/-- When no step has an output matching the target, the outer output
loop collects nothing. -/
theorem outputMatchesAux_none (relToRoot : String → Option String)
    (steps : List StepData) (target : String) :
    ∀ is : List (Fin steps.length),
      (∀ i : Fin steps.length, ∀ o ∈ (steps.get i).outputs,
        ∃ r, relToRoot o = some r ∧ r ≠ target) →
      outputMatchesAux relToRoot steps target is = .ok [] := by
  intro is
  induction is with
  | nil => intro _; rfl
  | cons i rest ih =>
    intro h
    have h1 : outputMatchStep relToRoot target (steps.get i).outputs = .ok false :=
      outputMatchStep_none relToRoot target _ (h i)
    simp only [outputMatchesAux, h1, ih h, Bool.false_eq_true, if_false]

/-- C8: when the target matches neither any step's shortcut nor any
step's output path relative to the project root, `set_target` raises an
error whose message offers the fuzzy close matches when there are any
and otherwise lists all valid targets; the step list is only ever
replaced on the success path, so it stays untouched here. -/
theorem C8_unknown_target (closeMatches : String → List String → List String)
    (relToRoot : String → Option String) (fexists : String → Bool)
    (steps : List StepData) (target : String) (extra_targets : List String)
    (hshort : ∀ i : Fin steps.length, (steps.get i).shortcut ≠ target)
    (houts : ∀ i : Fin steps.length, ∀ o ∈ (steps.get i).outputs,
      ∃ r, relToRoot o = some r ∧ r ≠ target) :
    (closeMatches target (steps.map (fun s => s.shortcut)) ≠ [] →
      set_target closeMatches relToRoot fexists steps target extra_targets
        = .error (target ++ " is not a valid target. Close matches: " ++
            String.intercalate ", "
              (closeMatches target (steps.map (fun s => s.shortcut))) ++ ".")) ∧
    (closeMatches target (steps.map (fun s => s.shortcut)) = [] →
      set_target closeMatches relToRoot fexists steps target extra_targets
        = .error (target ++ " is not a valid target. Valid targets: " ++
            String.intercalate ", " (steps.map (fun s => s.shortcut)) ++ ".")) := by
  have hsm : shortcutMatches steps target = [] := by
    rw [shortcutMatches, List.filter_eq_nil_iff]
    intro i _
    simpa using hshort i
  have hmt : matchedTargets relToRoot steps target = .ok [] := by
    rw [matchedTargets, hsm]
    simp [outputMatchesAux_none relToRoot steps target _ houts]
  constructor <;> intro hclose
  · have hce : (closeMatches target (steps.map (fun s => s.shortcut))).isEmpty = false :=
      List.isEmpty_eq_false.mpr hclose
    rw [set_target, hmt]
    simp [hce]
  · rw [set_target, hmt]
    simp [hclose]

/-- C8 witness: a one-step recipe and the unknown target "x", with a
fuzzy matcher that offers "build". -/
theorem C8_unknown_target_witness :
    ((fun (_ : String) (_ : List String) => ["build"]) "x"
        (([⟨"d", "build", ["ro"], [], 0⟩] : List StepData).map (fun s => s.shortcut))
      ≠ []) ∧
    set_target (fun _ _ => ["build"])
      (fun o => if o = "ro" then some "out" else none)
      (fun _ => false)
      [⟨"d", "build", ["ro"], [], 0⟩] "x" []
      = .error ("x is not a valid target. Close matches: " ++
          String.intercalate ", " ["build"] ++ ".") := by
  refine ⟨by decide, ?_⟩
  exact (C8_unknown_target (fun _ _ => ["build"])
    (fun o => if o = "ro" then some "out" else none) (fun _ => false)
    [⟨"d", "build", ["ro"], [], 0⟩] "x" []
    (by decide)
    (by
      intro i o hm
      fin_cases i
      simp only [List.get] at hm
      rcases List.mem_cons.mp hm with h | h
      · subst h
        exact ⟨"out", by decide, by decide⟩
      · cases h)).1 (by decide)

/-! ### Worklist lemmas for `update_transitive_includes` -/

/-- Unfolding of the include worklist at a dangling path. -/
theorem updateTIAux_cons_none {srcs : List (String × SFile)} {selfName p : String}
    {rest : List String} {st : TIState} (h : List.lookup p srcs = none) :
    updateTIAux srcs selfName (p :: rest) st =
      updateTIAux srcs selfName rest
        { st with warnings := st.warnings ++
            ["Warning: " ++ selfName ++ " includes non-existent \"" ++ p ++ "\""] } := by
  rw [updateTIAux]
  split
  · rfl
  · rename_i inc heq
    rw [h] at heq
    cases heq

/-- Unfolding of the include worklist at an already visited path. -/
theorem updateTIAux_cons_mem {srcs : List (String × SFile)} {selfName p : String}
    {rest : List String} {st : TIState} {inc : SFile}
    (h : List.lookup p srcs = some inc) (hmem : p ∈ st.transitive_includes) :
    updateTIAux srcs selfName (p :: rest) st = updateTIAux srcs selfName rest st := by
  rw [updateTIAux]
  split
  · rename_i heq
    rw [h] at heq
    cases heq
  · rename_i inc2 heq
    rw [h] at heq
    cases heq
    rw [if_pos hmem]

/-- Unfolding of the include worklist at a new in-map path. -/
theorem updateTIAux_cons_new {srcs : List (String × SFile)} {selfName p : String}
    {rest : List String} {st : TIState} {inc : SFile}
    (h : List.lookup p srcs = some inc) (hmem : p ∉ st.transitive_includes) :
    updateTIAux srcs selfName (p :: rest) st =
      updateTIAux srcs selfName (inc.direct_includes ++ rest)
        { transitive_includes := st.transitive_includes ++ [p],
          system_includes := mergeSys st.system_includes inc.system_includes,
          main := st.main || inc.main,
          warnings := st.warnings } := by
  rw [updateTIAux]
  split
  · rename_i heq
    rw [h] at heq
    cases heq
  · rename_i inc2 heq
    rw [h] at heq
    cases heq
    rw [if_neg hmem]

/-- Invariant lemma for the include worklist: run on a queue of
candidate paths (direct includes of the start or of an already reachable
file), with a visited set that is sound for reachability and closed up
to the queue, the walk returns a state whose visited set contains the
old one and every in-map queue entry, is sound and closed, propagates
`main` from the start and from every visited file, keeps all warnings
and warns about every dangling queue entry. -/
theorem updateTIAux_spec (srcs : List (String × SFile)) (selfName : String)
    (roots : List String) :
    ∀ (q : List String) (st : TIState),
    (∀ p ∈ q, p ∈ roots ∨ ∃ p2 inc, IncReach srcs roots p2 ∧
        List.lookup p2 srcs = some inc ∧ p ∈ inc.direct_includes) →
    (∀ p ∈ st.transitive_includes, IncReach srcs roots p) →
    (∀ p ∈ st.transitive_includes, ∀ inc, List.lookup p srcs = some inc →
        ∀ d ∈ inc.direct_includes, (List.lookup d srcs).isSome →
          d ∈ st.transitive_includes ∨ d ∈ q) →
    (∀ p ∈ st.transitive_includes, ∀ inc, List.lookup p srcs = some inc →
        inc.main = true → st.main = true) →
    (∀ p ∈ (updateTIAux srcs selfName q st).transitive_includes,
        IncReach srcs roots p) ∧
    (∀ p ∈ st.transitive_includes,
        p ∈ (updateTIAux srcs selfName q st).transitive_includes) ∧
    (∀ p ∈ q, (List.lookup p srcs).isSome →
        p ∈ (updateTIAux srcs selfName q st).transitive_includes) ∧
    (∀ p ∈ (updateTIAux srcs selfName q st).transitive_includes,
        ∀ inc, List.lookup p srcs = some inc →
        ∀ d ∈ inc.direct_includes, (List.lookup d srcs).isSome →
          d ∈ (updateTIAux srcs selfName q st).transitive_includes) ∧
    (st.main = true → (updateTIAux srcs selfName q st).main = true) ∧
    (∀ p ∈ (updateTIAux srcs selfName q st).transitive_includes,
        ∀ inc, List.lookup p srcs = some inc → inc.main = true →
          (updateTIAux srcs selfName q st).main = true) ∧
    (∀ w ∈ st.warnings, w ∈ (updateTIAux srcs selfName q st).warnings) ∧
    (∀ p ∈ q, List.lookup p srcs = none →
        ("Warning: " ++ selfName ++ " includes non-existent \"" ++ p ++ "\"")
          ∈ (updateTIAux srcs selfName q st).warnings) := by
  intro q st
  induction q, st using updateTIAux.induct srcs selfName with
  | case1 st =>
    intro _ hv hc hm
    rw [updateTIAux]
    refine ⟨hv, fun p h => h, fun p h => absurd h (List.not_mem_nil p), ?_, id, hm,
      fun w h => h, fun p h => absurd h (List.not_mem_nil p)⟩
    intro p hp inc hlk d hd hsome
    rcases hc p hp inc hlk d hd hsome with h | h
    · exact h
    · cases h
  | case2 p rest st hnone ih =>
    intro hq hv hc hm
    rw [updateTIAux_cons_none hnone]
    obtain ⟨g1, g2, g3, g4, g5, g6, g7, g8⟩ := ih
      (fun d hd => hq d (List.mem_cons_of_mem _ hd)) hv
      (fun x hx inc hlk d hd hsome => by
        rcases hc x hx inc hlk d hd hsome with h | h
        · exact Or.inl h
        · rcases List.mem_cons.mp h with h2 | h2
          · subst h2; rw [hnone] at hsome; cases hsome
          · exact Or.inr h2) hm
    refine ⟨g1, g2, ?_, g4, g5, g6, ?_, ?_⟩
    · intro x hx hsome
      rcases List.mem_cons.mp hx with h | h
      · subst h; rw [hnone] at hsome; cases hsome
      · exact g3 x h hsome
    · intro w hw
      exact g7 w (List.mem_append_left _ hw)
    · intro x hx hlk
      rcases List.mem_cons.mp hx with h | h
      · subst h
        exact g7 _ (List.mem_append_right _ (List.mem_singleton.mpr rfl))
      · exact g8 x h hlk
  | case3 p rest st inc hlk hmem ih =>
    intro hq hv hc hm
    rw [updateTIAux_cons_mem hlk hmem]
    obtain ⟨g1, g2, g3, g4, g5, g6, g7, g8⟩ := ih
      (fun d hd => hq d (List.mem_cons_of_mem _ hd)) hv
      (fun x hx inc2 hlk2 d hd hsome => by
        rcases hc x hx inc2 hlk2 d hd hsome with h | h
        · exact Or.inl h
        · rcases List.mem_cons.mp h with h2 | h2
          · exact Or.inl (h2 ▸ hmem)
          · exact Or.inr h2) hm
    refine ⟨g1, g2, ?_, g4, g5, g6, g7, ?_⟩
    · intro x hx hsome
      rcases List.mem_cons.mp hx with h | h
      · exact h ▸ g2 p hmem
      · exact g3 x h hsome
    · intro x hx hlk2
      rcases List.mem_cons.mp hx with h | h
      · subst h; rw [hlk] at hlk2; cases hlk2
      · exact g8 x h hlk2
  | case4 p rest st inc hlk hmem ih =>
    intro hq hv hc hm
    rw [updateTIAux_cons_new hlk hmem]
    have hreachp : IncReach srcs roots p := by
      rcases hq p (List.mem_cons_self p rest) with h | h
      · exact IncReach.root h (by rw [hlk]; rfl)
      · obtain ⟨p2, inc2, hr, hlk2, hd⟩ := h
        exact IncReach.step hr hlk2 hd (by rw [hlk]; rfl)
    obtain ⟨g1, g2, g3, g4, g5, g6, g7, g8⟩ := ih
      (fun d hd => by
        rcases List.mem_append.mp hd with h | h
        · exact Or.inr ⟨p, inc, hreachp, hlk, h⟩
        · exact hq d (List.mem_cons_of_mem _ h))
      (fun x hx => by
        rcases List.mem_append.mp hx with h | h
        · exact hv x h
        · exact (List.mem_singleton.mp h) ▸ hreachp)
      (fun x hx inc2 hlk2 d hd hsome => by
        rcases List.mem_append.mp hx with h | h
        · rcases hc x h inc2 hlk2 d hd hsome with h2 | h2
          · exact Or.inl (List.mem_append_left _ h2)
          · rcases List.mem_cons.mp h2 with h3 | h3
            · exact Or.inl (List.mem_append_right _ (List.mem_singleton.mpr h3))
            · exact Or.inr (List.mem_append_right _ h3)
        · have hx2 := List.mem_singleton.mp h
          subst hx2
          rw [hlk] at hlk2
          cases hlk2
          exact Or.inr (List.mem_append_left _ hd))
      (fun x hx inc2 hlk2 hmain => by
        rcases List.mem_append.mp hx with h | h
        · rw [hm x h inc2 hlk2 hmain]; rfl
        · have hx2 := List.mem_singleton.mp h
          subst hx2
          rw [hlk] at hlk2
          cases hlk2
          rw [hmain]
          simp)
    refine ⟨g1, ?_, ?_, g4, ?_, g6, g7, ?_⟩
    · intro x hx
      exact g2 x (List.mem_append_left _ hx)
    · intro x hx hsome
      rcases List.mem_cons.mp hx with h | h
      · exact h ▸ g2 p (List.mem_append_right _ (List.mem_singleton.mpr rfl))
      · exact g3 x (List.mem_append_right _ h) hsome
    · intro hmain
      exact g5 (by rw [hmain]; rfl)
    · intro x hx hlk2
      rcases List.mem_cons.mp hx with h | h
      · subst h; rw [hlk] at hlk2; cases hlk2
      · exact g8 x (List.mem_append_right _ h) hlk2

/-- C7: after `update_transitive_includes` runs for a file, its
`transitive_includes` is exactly the set of files reachable from it over
direct local-include edges within the file map; its `main` flag is true
whenever it was already true or any reachable included file has `main`
set; and a direct include pointing outside the map produces a warning
while the walk still completes. -/
theorem C7_transitive_includes (srcs : List (String × SFile)) (f : SFile) :
    (∀ p, p ∈ (update_transitive_includes srcs f).transitive_includes ↔
        IncReach srcs f.direct_includes p) ∧
    (f.main = true → (update_transitive_includes srcs f).main = true) ∧
    ((∃ p inc, IncReach srcs f.direct_includes p ∧ List.lookup p srcs = some inc ∧
        inc.main = true) → (update_transitive_includes srcs f).main = true) ∧
    (∀ p ∈ f.direct_includes, List.lookup p srcs = none →
      ("Warning: " ++ f.path ++ " includes non-existent \"" ++ p ++ "\"")
        ∈ (update_transitive_includes srcs f).warnings) := by
  obtain ⟨g1, g2, g3, g4, g5, g6, g7, g8⟩ :=
    updateTIAux_spec srcs f.path f.direct_includes f.direct_includes
      { transitive_includes := [], system_includes := f.system_includes,
        main := f.main, warnings := [] }
      (fun p hp => Or.inl hp)
      (fun p hp => absurd hp (List.not_mem_nil p))
      (fun p hp => absurd hp (List.not_mem_nil p))
      (fun p hp => absurd hp (List.not_mem_nil p))
  simp only [update_transitive_includes]
  have hcomp : ∀ p, IncReach srcs f.direct_includes p →
      p ∈ (updateTIAux srcs f.path f.direct_includes
        { transitive_includes := [], system_includes := f.system_includes,
          main := f.main, warnings := [] }).transitive_includes := by
    intro p h
    induction h with
    | root hmem hsome => exact g3 _ hmem hsome
    | step _ hlk hd hsome ih => exact g4 _ ih _ hlk _ hd hsome
  refine ⟨fun p => ⟨fun h => g1 p h, hcomp p⟩, g5, ?_, g8⟩
  rintro ⟨p, inc, hreach, hlk, hmain⟩
  exact g6 p (hcomp p hreach) inc hlk hmain

/-- C7 witness: A includes B, B includes C and C carries the `main`
marker; after the walk, C is in A's transitive includes and A's `main`
is set. -/
theorem C7_transitive_includes_witness :
    "C" ∈ (update_transitive_includes
      [("A", ⟨"A", ["B"], [], false⟩), ("B", ⟨"B", ["C"], [], false⟩),
       ("C", ⟨"C", [], [], true⟩)]
      ⟨"A", ["B"], [], false⟩).transitive_includes ∧
    (update_transitive_includes
      [("A", ⟨"A", ["B"], [], false⟩), ("B", ⟨"B", ["C"], [], false⟩),
       ("C", ⟨"C", [], [], true⟩)]
      ⟨"A", ["B"], [], false⟩).main = true := by
  have hB : IncReach
      [("A", ⟨"A", ["B"], [], false⟩), ("B", ⟨"B", ["C"], [], false⟩),
       ("C", ⟨"C", [], [], true⟩)] ["B"] "B" :=
    IncReach.root (by decide) (by rfl)
  have hC : IncReach
      [("A", ⟨"A", ["B"], [], false⟩), ("B", ⟨"B", ["C"], [], false⟩),
       ("C", ⟨"C", [], [], true⟩)] ["B"] "C" :=
    IncReach.step hB (by rfl) (by decide) (by rfl)
  constructor
  · exact ((C7_transitive_includes
      [("A", ⟨"A", ["B"], [], false⟩), ("B", ⟨"B", ["C"], [], false⟩),
       ("C", ⟨"C", [], [], true⟩)]
      ⟨"A", ["B"], [], false⟩).1 "C").mpr hC
  · exact (C7_transitive_includes
      [("A", ⟨"A", ["B"], [], false⟩), ("B", ⟨"B", ["C"], [], false⟩),
       ("C", ⟨"C", [], [], true⟩)]
      ⟨"A", ["B"], [], false⟩).2.2.1 ⟨"C", ⟨"C", [], [], true⟩, hC, by rfl, by rfl⟩

/-! ### Scheduler lemmas -/

/-- Intersection of path sets, as a proposition. -/
theorem intersects_iff {xs ys : List String} :
    intersects xs ys = true ↔ ∃ x, x ∈ xs ∧ x ∈ ys := by
  simp [intersects]

/-- Intersection is symmetric. -/
theorem intersects_symm {xs ys : List String} (h : intersects xs ys = true) :
    intersects ys xs = true := by
  obtain ⟨x, h1, h2⟩ := intersects_iff.mp h
  exact intersects_iff.mpr ⟨x, h2, h1⟩

/-- The decrement condition of `on_step_finished` makes `a` a blocker of
`b` whenever they are distinct. -/
theorem blocksB_of_decrement {n : Nat} {sd : Fin n → StepData} {a b : Fin n}
    (h : intersects (sd b).inputs (sd a).outputs = true) (hne : a ≠ b) :
    blocksB sd a b = true := by
  rw [blocksB, Bool.and_eq_true]
  exact ⟨by simp [hne], intersects_symm h⟩

/-- A step with all blockers finished has `blocker_count` zero. -/
theorem blocker_zero_of_safe {n : Nat} {sd : Fin n → StepData} {s : ExecState n}
    {b : Fin n} (hcount : CountInv sd s) (hb : b ∉ s.finished)
    (hsafe_b : ∀ j, blocksB sd j b = true → j ∈ s.finished) :
    s.blocker b = 0 := by
  rw [hcount b hb]
  have h0 : (List.finRange n).filter
      (fun j => blocksB sd j b && decide (j ∉ s.finished)) = [] := by
    rw [List.filter_eq_nil_iff]
    intro j _ hj
    rw [Bool.and_eq_true] at hj
    obtain ⟨h1, h2⟩ := hj
    rw [decide_eq_true_iff] at h2
    exact h2 (hsafe_b j h1)
  rw [h0]
  rfl

/-- Removing one satisfying element from a duplicate-free list shrinks
the filtered length by exactly one. -/
theorem length_filter_erase_one {α : Type} [DecidableEq α] :
    ∀ (l : List α), l.Nodup → ∀ (p : α → Bool) (a : α), a ∈ l → p a = true →
      (l.filter p).length =
        (l.filter (fun x => p x && decide (x ≠ a))).length + 1 := by
  intro l
  induction l with
  | nil => intro _ p a ha; cases ha
  | cons b l ih =>
    intro hnd p a ha hpa
    obtain ⟨hbl, hndl⟩ := List.nodup_cons.mp hnd
    by_cases hba : b = a
    · subst hba
      have hfeq : l.filter (fun x => p x && decide (x ≠ b)) = l.filter p := by
        apply List.filter_congr
        intro x hx
        have hxb : x ≠ b := fun h => hbl (h ▸ hx)
        simp [hxb]
      rw [List.filter_cons, List.filter_cons, hfeq]
      have h1 : (p b && decide (b ≠ b)) = false := by simp
      rw [h1, hpa]
      simp
    · have hal : a ∈ l := by
        rcases List.mem_cons.mp ha with h | h
        · exact absurd h.symm hba
        · exact h
      have hrec := ih hndl p a hal hpa
      rw [List.filter_cons, List.filter_cons]
      have h1 : (decide (b ≠ a)) = true := by simp [hba]
      rw [h1, Bool.and_true]
      by_cases hpb : p b = true
      · rw [hpb]
        simpa using hrec
      · rw [Bool.eq_false_iff.mpr hpb]
        simpa using hrec

/-- Membership in the finished set extended by one element. -/
theorem notMem_append_singleton {α : Type} [DecidableEq α] (f : List α) (a j : α) :
    (decide (j ∉ f ++ [a])) = (decide (j ∉ f) && decide (j ≠ a)) := by
  by_cases h1 : j ∈ f <;> by_cases h2 : j = a <;>
    simp [List.mem_append, h1, h2]

/-- Core preservation lemma: running `on_step_finished` for a step `a`
that is in none of the queues, not yet finished, and all of whose
blockers are finished, preserves the scheduler invariant. -/
theorem execInv_finish {n : Nat} {sd : Fin n → StepData} {s : ExecState n} {a : Fin n}
    (hcount : CountInv sd s) (hsafe : SafeInv sd s)
    (hnodup : (s.ready ++ s.running ++ s.finished).Nodup)
    (ha_ready : a ∉ s.ready) (ha_run : a ∉ s.running) (ha_fin : a ∉ s.finished)
    (hsafe_a : ∀ j, blocksB sd j a = true → j ∈ s.finished) :
    ExecInv sd (finishStepState sd s a) := by
  have hblocker_a : s.blocker a = 0 := blocker_zero_of_safe hcount ha_fin hsafe_a
  have hnew : ∀ b : Fin n,
      intersects (sd b).inputs (sd a).outputs = true →
      (if intersects (sd b).inputs (sd a).outputs then s.blocker b - 1 else s.blocker b) = 0 →
      b ≠ a ∧ b ∉ s.finished ∧ b ∉ s.ready ∧ b ∉ s.running ∧
        (∀ j, blocksB sd j b = true → j ∈ s.finished ++ [a]) := by
    intro b hint hbz
    rw [if_pos hint] at hbz
    have hbz2 : s.blocker b = 1 := by omega
    have hba : b ≠ a := by
      intro h
      rw [h, hblocker_a] at hbz2
      omega
    have hbfin : b ∉ s.finished := by
      intro hmem
      exact ha_fin (hsafe b (Or.inr (Or.inr hmem)) a (blocksB_of_decrement hint (Ne.symm hba)))
    have hcountb := hcount b hbfin
    rw [hbz2] at hcountb
    have hlen : ((List.finRange n).filter
        (fun j => blocksB sd j b && decide (j ∉ s.finished))).length = 1 := by
      omega
    obtain ⟨w, hw⟩ := List.length_eq_one.mp hlen
    have haw : a ∈ (List.finRange n).filter
        (fun j => blocksB sd j b && decide (j ∉ s.finished)) := by
      rw [List.mem_filter]
      refine ⟨List.mem_finRange a, ?_⟩
      rw [Bool.and_eq_true]
      exact ⟨blocksB_of_decrement hint (Ne.symm hba), by simp [ha_fin]⟩
    rw [hw] at haw
    have hwa : w = a := (List.mem_singleton.mp haw).symm
    rw [hwa] at hw
    have hsafe_b : ∀ j, blocksB sd j b = true → j ∈ s.finished ++ [a] := by
      intro j hj
      by_cases hjf : j ∈ s.finished
      · exact List.mem_append_left _ hjf
      · have hjm : j ∈ (List.finRange n).filter
            (fun j => blocksB sd j b && decide (j ∉ s.finished)) := by
          rw [List.mem_filter]
          refine ⟨List.mem_finRange j, ?_⟩
          rw [Bool.and_eq_true]
          exact ⟨hj, by simp [hjf]⟩
        rw [hw] at hjm
        have := List.mem_singleton.mp hjm
        subst this
        exact List.mem_append_right _ (List.mem_singleton.mpr rfl)
    have hbready : b ∉ s.ready := by
      intro hmem
      have h0 : s.blocker b = 0 :=
        blocker_zero_of_safe hcount hbfin (hsafe b (Or.inl hmem))
      rw [h0] at hbz2
      omega
    have hbrun : b ∉ s.running := by
      intro hmem
      have h0 : s.blocker b = 0 :=
        blocker_zero_of_safe hcount hbfin (hsafe b (Or.inr (Or.inl hmem)))
      rw [h0] at hbz2
      omega
    exact ⟨hba, hbfin, hbready, hbrun, hsafe_b⟩
  refine ⟨?_, ?_, ?_⟩
  · -- counting invariant
    intro i hi
    simp only [finishStepState] at hi ⊢
    have hif : i ∉ s.finished := fun h => hi (List.mem_append_left _ h)
    have hia : i ≠ a := fun h => hi (List.mem_append_right _ (by simp [h]))
    have hfcongr : (List.finRange n).filter
        (fun j => blocksB sd j i && decide (j ∉ s.finished ++ [a]))
        = (List.finRange n).filter
          (fun j => (blocksB sd j i && decide (j ∉ s.finished)) && decide (j ≠ a)) := by
      apply List.filter_congr
      intro j _
      rw [notMem_append_singleton]
      exact (Bool.and_assoc _ _ _).symm
    rw [hfcongr]
    by_cases hint : intersects (sd i).inputs (sd a).outputs = true
    · rw [if_pos hint, hcount i hif]
      have hpa : (blocksB sd a i && decide (a ∉ s.finished)) = true := by
        rw [Bool.and_eq_true]
        exact ⟨blocksB_of_decrement hint (Ne.symm hia), by simp [ha_fin]⟩
      have hrem := length_filter_erase_one (List.finRange n) (List.nodup_finRange n)
        (fun j => blocksB sd j i && decide (j ∉ s.finished)) a (List.mem_finRange a) hpa
      simp only [] at hrem
      omega
    · rw [if_neg hint, hcount i hif]
      have hfeq : (List.finRange n).filter
          (fun j => (blocksB sd j i && decide (j ∉ s.finished)) && decide (j ≠ a))
          = (List.finRange n).filter
            (fun j => blocksB sd j i && decide (j ∉ s.finished)) := by
        apply List.filter_congr
        intro j _
        by_cases hja : j = a
        · subst hja
          have hb : blocksB sd j i = false := by
            rw [blocksB]
            have hx : intersects (sd j).outputs (sd i).inputs = false := by
              rw [Bool.eq_false_iff]
              intro hx
              exact hint (intersects_symm hx)
            rw [hx, Bool.and_false]
          simp [hb]
        · simp [hja]
      rw [hfeq]
  · -- safety invariant
    intro i hi j hbj
    simp only [finishStepState] at hi ⊢
    rcases hi with hready | hrun | hfin
    · rcases List.mem_append.mp hready with h | h
      · exact List.mem_append_left _ (hsafe i (Or.inl h) j hbj)
      · rw [List.mem_filter] at h
        obtain ⟨_, hpred⟩ := h
        rw [Bool.and_eq_true] at hpred
        obtain ⟨hint, hz⟩ := hpred
        rw [decide_eq_true_iff] at hz
        exact (hnew i hint hz).2.2.2.2 j hbj
    · exact List.mem_append_left _ (hsafe i (Or.inr (Or.inl hrun)) j hbj)
    · rcases List.mem_append.mp hfin with h | h
      · exact List.mem_append_left _ (hsafe i (Or.inr (Or.inr h)) j hbj)
      · have hia : i = a := List.mem_singleton.mp h
        subst hia
        exact List.mem_append_left _ (hsafe_a j hbj)
  · -- no duplicates
    simp only [finishStepState]
    rw [List.nodup_append, List.nodup_append] at hnodup
    obtain ⟨⟨hRnd, hRunNd, hDisjRRun⟩, hFinNd, hDisjRRunFin⟩ := hnodup
    have hnewR : ∀ b ∈ (List.finRange n).filter
        (fun b => intersects (sd b).inputs (sd a).outputs &&
          decide ((if intersects (sd b).inputs (sd a).outputs
            then s.blocker b - 1 else s.blocker b) = 0)),
        b ≠ a ∧ b ∉ s.finished ∧ b ∉ s.ready ∧ b ∉ s.running := by
      intro b hb
      rw [List.mem_filter] at hb
      obtain ⟨_, hpred⟩ := hb
      rw [Bool.and_eq_true] at hpred
      obtain ⟨hint, hz⟩ := hpred
      rw [decide_eq_true_iff] at hz
      obtain ⟨h1, h2, h3, h4, _⟩ := hnew b hint hz
      exact ⟨h1, h2, h3, h4⟩
    rw [List.nodup_append, List.nodup_append]
    refine ⟨⟨?_, hRunNd, ?_⟩, ?_, ?_⟩
    · rw [List.nodup_append]
      refine ⟨hRnd, List.Nodup.filter _ (List.nodup_finRange n), ?_⟩
      intro x hx hx2
      exact (hnewR x hx2).2.2.1 hx
    · intro x hx hx2
      rcases List.mem_append.mp hx with h | h
      · exact hDisjRRun h hx2
      · exact (hnewR x h).2.2.2 hx2
    · rw [List.nodup_append]
      refine ⟨hFinNd, List.nodup_singleton a, ?_⟩
      intro x hx hx2
      rw [List.mem_singleton] at hx2
      exact ha_fin (hx2 ▸ hx)
    · intro x hx hx2
      rcases List.mem_append.mp hx2 with h2 | h2
      · rcases List.mem_append.mp hx with h | h
        · rcases List.mem_append.mp h with h3 | h3
          · exact hDisjRRunFin (List.mem_append_left _ h3) h2
          · exact (hnewR x h3).2.1 h2
        · exact hDisjRRunFin (List.mem_append_right _ h) h2
      · rw [List.mem_singleton] at h2
        subst h2
        rcases List.mem_append.mp hx with h | h
        · rcases List.mem_append.mp h with h3 | h3
          · exact ha_ready h3
          · exact (hnewR x h3).1 rfl
        · exact ha_run h

/-- The initial scheduler state satisfies the invariant. -/
theorem execInv_init {n : Nat} (sd : Fin n → StepData) : ExecInv sd (initState sd) := by
  refine ⟨?_, ?_, ?_⟩
  · intro i _
    simp only [initState, initBlocker]
    congr 2
    apply List.filter_congr
    intro j _
    simp
  · intro i hi j hbj
    simp only [initState] at hi ⊢
    rcases hi with h | h | h
    · rw [List.mem_filter] at h
      obtain ⟨_, hz⟩ := h
      rw [decide_eq_true_iff] at hz
      simp only [initBlocker] at hz
      have hlen : ((List.finRange n).filter (fun j => blocksB sd j i)).length = 0 := by
        omega
      have hnil := List.length_eq_zero.mp hlen
      have hjm : j ∈ (List.finRange n).filter (fun j => blocksB sd j i) :=
        List.mem_filter.mpr ⟨List.mem_finRange j, hbj⟩
      rw [hnil] at hjm
      exact hjm
    · cases h
    · cases h
  · simp only [initState, List.append_nil]
    exact List.Nodup.filter _ (List.nodup_finRange n)

/-- One scheduler transition preserves the invariant. -/
theorem execInv_step {n : Nat} {sd : Fin n → StepData} {N : Nat} {s t : ExecState n}
    (hstep : ExecStep sd N s t) (h : ExecInv sd s) : ExecInv sd t := by
  obtain ⟨hcount, hsafe, hnodup⟩ := h
  cases hstep with
  | dispatch_spawn hready hlen =>
    rename_i rest i
    refine ⟨hcount, ?_, ?_⟩
    · intro q hq j hbj
      rcases hq with h1 | h2 | h3
      · exact hsafe q (Or.inl (by rw [hready]; exact List.mem_append_left _ h1)) j hbj
      · rcases List.mem_append.mp h2 with hx | hx
        · exact hsafe q (Or.inr (Or.inl hx)) j hbj
        · rw [List.mem_singleton] at hx
          subst hx
          exact hsafe q (Or.inl (by
            rw [hready]
            exact List.mem_append_right _ (List.mem_singleton.mpr rfl))) j hbj
      · exact hsafe q (Or.inr (Or.inr h3)) j hbj
    · rw [hready] at hnodup
      have hperm : ((rest ++ [i]) ++ s.running ++ s.finished).Perm
          (rest ++ (s.running ++ [i]) ++ s.finished) := by
        apply List.Perm.append_right s.finished
        rw [List.append_assoc]
        exact List.Perm.append_left rest (List.perm_append_comm)
      exact hperm.nodup hnodup
  | dispatch_sync hready hlen =>
    rename_i rest i
    rw [hready] at hnodup
    rw [List.nodup_append, List.nodup_append] at hnodup
    obtain ⟨⟨hRiNd, hRunNd, hDisjRiRun⟩, hFinNd, hDisjRiRunFin⟩ := hnodup
    rw [List.nodup_append] at hRiNd
    obtain ⟨hRestNd, _, hDisjResti⟩ := hRiNd
    have hi_rest : i ∉ rest := fun hm => hDisjResti hm (List.mem_singleton.mpr rfl)
    have hi_run : i ∉ s.running := fun hm =>
      hDisjRiRun (List.mem_append_right _ (List.mem_singleton.mpr rfl)) hm
    have hi_fin : i ∉ s.finished := fun hm =>
      hDisjRiRunFin (List.mem_append_left _
        (List.mem_append_right _ (List.mem_singleton.mpr rfl))) hm
    have hi_ready : i ∈ s.ready := by
      rw [hready]
      exact List.mem_append_right _ (List.mem_singleton.mpr rfl)
    apply execInv_finish
    · exact hcount
    · intro q hq j hbj
      rcases hq with h1 | h2 | h3
      · exact hsafe q (Or.inl (by rw [hready]; exact List.mem_append_left _ h1)) j hbj
      · exact hsafe q (Or.inr (Or.inl h2)) j hbj
      · exact hsafe q (Or.inr (Or.inr h3)) j hbj
    · rw [List.nodup_append, List.nodup_append]
      refine ⟨⟨hRestNd, hRunNd, ?_⟩, hFinNd, ?_⟩
      · intro x hx hx2
        exact hDisjRiRun (List.mem_append_left _ hx) hx2
      · intro x hx hx2
        rcases List.mem_append.mp hx with hy | hy
        · exact hDisjRiRunFin (List.mem_append_left _ (List.mem_append_left _ hy)) hx2
        · exact hDisjRiRunFin (List.mem_append_right _ hy) hx2
    · exact hi_rest
    · exact hi_run
    · exact hi_fin
    · exact hsafe i (Or.inl hi_ready)
  | finish_proc hrun hguard =>
    rename_i l r i
    rw [hrun] at hnodup
    rw [List.nodup_append, List.nodup_append] at hnodup
    obtain ⟨⟨hRNd, hLirNd, hDisjRLir⟩, hFinNd, hDisjRLirFin⟩ := hnodup
    rw [List.nodup_append] at hLirNd
    obtain ⟨hLNd, hIrNd, hDisjLir⟩ := hLirNd
    obtain ⟨hi_r, hRnd2⟩ := List.nodup_cons.mp hIrNd
    have hi_l : i ∉ l := fun hm => hDisjLir hm (List.mem_cons_self i r)
    have hi_lr : i ∉ l ++ r := fun hm => by
      rcases List.mem_append.mp hm with hy | hy
      · exact hi_l hy
      · exact hi_r hy
    have hi_running : i ∈ s.running := by
      rw [hrun]
      exact List.mem_append_right _ (List.mem_cons_self i r)
    have hi_ready : i ∉ s.ready := fun hm =>
      hDisjRLir hm (List.mem_append_right _ (List.mem_cons_self i r))
    have hi_fin : i ∉ s.finished := fun hm =>
      hDisjRLirFin (List.mem_append_right _
        (List.mem_append_right _ (List.mem_cons_self i r))) hm
    apply execInv_finish
    · exact hcount
    · intro q hq j hbj
      rcases hq with h1 | h2 | h3
      · exact hsafe q (Or.inl h1) j hbj
      · refine hsafe q (Or.inr (Or.inl ?_)) j hbj
        rw [hrun]
        rcases List.mem_append.mp h2 with hy | hy
        · exact List.mem_append_left _ hy
        · exact List.mem_append_right _ (List.mem_cons_of_mem _ hy)
      · exact hsafe q (Or.inr (Or.inr h3)) j hbj
    · rw [List.nodup_append, List.nodup_append]
      have hDisjLr : l.Disjoint r := fun x hx hx2 =>
        hDisjLir hx (List.mem_cons_of_mem _ hx2)
      refine ⟨⟨hRNd, ?_, ?_⟩, hFinNd, ?_⟩
      · rw [List.nodup_append]
        exact ⟨hLNd, hRnd2, hDisjLr⟩
      · intro x hx hx2
        refine hDisjRLir hx ?_
        rcases List.mem_append.mp hx2 with hy | hy
        · exact List.mem_append_left _ hy
        · exact List.mem_append_right _ (List.mem_cons_of_mem _ hy)
      · intro x hx hx2
        refine hDisjRLirFin ?_ hx2
        rcases List.mem_append.mp hx with hy | hy
        · exact List.mem_append_left _ hy
        · rcases List.mem_append.mp hy with hz | hz
          · exact List.mem_append_right _ (List.mem_append_left _ hz)
          · exact List.mem_append_right _
              (List.mem_append_right _ (List.mem_cons_of_mem _ hz))
    · exact hi_ready
    · exact hi_lr
    · exact hi_fin
    · exact hsafe i (Or.inr (Or.inl hi_running))

/-- Every reachable scheduler state satisfies the invariant. -/
theorem execInv_reachable {n : Nat} {sd : Fin n → StepData} {N : Nat} {s : ExecState n}
    (h : ExecReachable sd N s) : ExecInv sd s := by
  induction h with
  | refl => exact execInv_init sd
  | tail _ hstep ih => exact execInv_step hstep ih

/-- C2: in every run of `Recipe.execute`, whenever a step has been
dispatched (it is running or finished), every step whose outputs
intersect its inputs has already reached its finished state: the
blocker counts are initialized to the number of such other steps, only
zero-blocker steps enter the ready queue, counts drop only when a
blocking step finishes, and a step is dispatched only from the ready
queue. -/
theorem C2_topological_safety {n : Nat} (sd : Fin n → StepData) (N : Nat)
    (s : ExecState n) (h : ExecReachable sd N s) :
    ∀ i, (i ∈ s.running ∨ i ∈ s.finished) →
      ∀ j, blocksB sd j i = true → j ∈ s.finished := by
  obtain ⟨_, hsafe, _⟩ := execInv_reachable h
  intro i hi j hbj
  rcases hi with h1 | h2
  · exact hsafe i (Or.inr (Or.inl h1)) j hbj
  · exact hsafe i (Or.inr (Or.inr h2)) j hbj

/-- C2 witness: a one-step recipe; after dispatching and synchronously
finishing the step, the reached state satisfies topological safety. -/
theorem C2_topological_safety_witness :
    ExecReachable (fun _ : Fin 1 => (⟨"r", "run", [], [], 0⟩ : StepData)) 1
      (finishStepState (fun _ : Fin 1 => (⟨"r", "run", [], [], 0⟩ : StepData))
        { initState (fun _ : Fin 1 => (⟨"r", "run", [], [], 0⟩ : StepData)) with
            ready := [] } 0) ∧
    (∀ i, (i ∈ (finishStepState (fun _ : Fin 1 => (⟨"r", "run", [], [], 0⟩ : StepData))
        { initState (fun _ : Fin 1 => (⟨"r", "run", [], [], 0⟩ : StepData)) with
            ready := [] } 0).running ∨
        i ∈ (finishStepState (fun _ : Fin 1 => (⟨"r", "run", [], [], 0⟩ : StepData))
        { initState (fun _ : Fin 1 => (⟨"r", "run", [], [], 0⟩ : StepData)) with
            ready := [] } 0).finished) →
      ∀ j, blocksB (fun _ : Fin 1 => (⟨"r", "run", [], [], 0⟩ : StepData)) j i = true →
        j ∈ (finishStepState (fun _ : Fin 1 => (⟨"r", "run", [], [], 0⟩ : StepData))
        { initState (fun _ : Fin 1 => (⟨"r", "run", [], [], 0⟩ : StepData)) with
            ready := [] } 0).finished) := by
  have hreach : ExecReachable (fun _ : Fin 1 => (⟨"r", "run", [], [], 0⟩ : StepData)) 1
      (finishStepState (fun _ : Fin 1 => (⟨"r", "run", [], [], 0⟩ : StepData))
        { initState (fun _ : Fin 1 => (⟨"r", "run", [], [], 0⟩ : StepData)) with
            ready := [] } 0) :=
    Relation.ReflTransGen.tail Relation.ReflTransGen.refl
      (@ExecStep.dispatch_sync 1 (fun _ : Fin 1 => (⟨"r", "run", [], [], 0⟩ : StepData)) 1
        (initState (fun _ : Fin 1 => (⟨"r", "run", [], [], 0⟩ : StepData))) [] 0
        (by rfl) (by decide))
  exact ⟨hreach,
    C2_topological_safety (fun _ : Fin 1 => (⟨"r", "run", [], [], 0⟩ : StepData)) 1 _ hreach⟩

/-- C9: at every point during `Recipe.execute`, the number of
concurrently outstanding running step processes never exceeds the
concurrency budget `N = multiprocessing.cpu_count()`: a ready step is
dispatched only when the number of running processes is below the
budget, otherwise the loop blocks waiting for a process to finish. -/
theorem C9_concurrency_bound {n : Nat} (sd : Fin n → StepData) (N : Nat)
    (s : ExecState n) (h : ExecReachable sd N s) :
    s.running.length ≤ N := by
  induction h with
  | refl => simp [initState]
  | tail _ hstep ih =>
    cases hstep with
    | dispatch_spawn hready hlen =>
      simp only [List.length_append, List.length_singleton]
      omega
    | dispatch_sync hready hlen =>
      simpa [finishStepState] using ih
    | finish_proc hrun hguard =>
      rename_i l r i
      simp only [finishStepState]
      rw [hrun] at ih
      simp only [List.length_append, List.length_cons] at ih ⊢
      omega

/-- C9 witness: the bound at the reached state of the C2 scenario,
with a budget of one process. -/
theorem C9_concurrency_bound_witness :
    (finishStepState (fun _ : Fin 1 => (⟨"r", "run", [], [], 0⟩ : StepData))
        { initState (fun _ : Fin 1 => (⟨"r", "run", [], [], 0⟩ : StepData)) with
            ready := [] } 0).running.length ≤ 1 := by
  have hreach : ExecReachable (fun _ : Fin 1 => (⟨"r", "run", [], [], 0⟩ : StepData)) 1
      (finishStepState (fun _ : Fin 1 => (⟨"r", "run", [], [], 0⟩ : StepData))
        { initState (fun _ : Fin 1 => (⟨"r", "run", [], [], 0⟩ : StepData)) with
            ready := [] } 0) :=
    Relation.ReflTransGen.tail Relation.ReflTransGen.refl
      (@ExecStep.dispatch_sync 1 (fun _ : Fin 1 => (⟨"r", "run", [], [], 0⟩ : StepData)) 1
        (initState (fun _ : Fin 1 => (⟨"r", "run", [], [], 0⟩ : StepData))) [] 0
        (by rfl) (by decide))
  exact C9_concurrency_bound (fun _ : Fin 1 => (⟨"r", "run", [], [], 0⟩ : StepData)) 1 _ hreach

end RunPy
